import Mathlib

/-!
Verification of the deterministic core of the podcast subtitle pipeline:

* `step2_wav2vec2_timing.py` — `Wav2Vec2Timer.find_subtitle_times`
  (length-proportional time allocation);
* `step3_generate_vtt.py` — `WebVTTGenerator.validate_subtitle_timing`,
  `generate_webvtt`, `format_time`, `validate_webvtt_file`;
* `step1_gemini_text_split.py` — `GeminiTextSplitter.normalize_text`,
  `validate_content_integrity`, the deterministic tail of
  `split_and_refine_text`;
* `step4_generate_groups.py` — `SubtitleGrouper.validate_groups`.

Python floats are modelled as exact rationals (`ℚ`), `round(x, n)` and
`"%.3f"` formatting as decimal round-half-to-even on the exact value,
and Python strings as `String`/`List Char`.  Fallible operations
(`IndexError`, `ZeroDivisionError`, `sys.exit`) are made explicit with
`Option`/`Except` results.
-/

namespace Podcast

/-! ## Decimal rounding (Python `round`) -/

/-- Round-half-to-even (banker's rounding) of a rational to the nearest
integer; models Python's `round` applied to the exact value. -/
def rndHalfEven (x : ℚ) : ℤ :=
  if x - (⌊x⌋ : ℚ) < 1/2 then ⌊x⌋
  else if 1/2 < x - (⌊x⌋ : ℚ) then ⌊x⌋ + 1
  else if ⌊x⌋ % 2 = 0 then ⌊x⌋ else ⌊x⌋ + 1

/-- Python `round(x, 2)` on the exact rational value. -/
def pyRound2 (x : ℚ) : ℚ := (rndHalfEven (100 * x) : ℚ) / 100

/-- Python `round(x, 3)` on the exact rational value. -/
def pyRound3 (x : ℚ) : ℚ := (rndHalfEven (1000 * x) : ℚ) / 1000

theorem le_rndHalfEven (x : ℚ) : x - 1/2 ≤ (rndHalfEven x : ℚ) := by
  have h0 : ((⌊x⌋ : ℤ) : ℚ) ≤ x := Int.floor_le x
  have h1 : x < (⌊x⌋ : ℚ) + 1 := Int.lt_floor_add_one x
  unfold rndHalfEven
  split_ifs <;> push_cast <;> linarith

theorem rndHalfEven_le (x : ℚ) : (rndHalfEven x : ℚ) ≤ x + 1/2 := by
  have h0 : ((⌊x⌋ : ℤ) : ℚ) ≤ x := Int.floor_le x
  have h1 : x < (⌊x⌋ : ℚ) + 1 := Int.lt_floor_add_one x
  unfold rndHalfEven
  split_ifs <;> push_cast <;> linarith

theorem rndHalfEven_intCast (n : ℤ) : rndHalfEven (n : ℚ) = n := by
  unfold rndHalfEven
  rw [Int.floor_intCast]
  norm_num

theorem rndHalfEven_floor_le (x : ℚ) : ⌊x⌋ ≤ rndHalfEven x := by
  unfold rndHalfEven; split_ifs <;> omega

theorem rndHalfEven_le_floor_add_one (x : ℚ) : rndHalfEven x ≤ ⌊x⌋ + 1 := by
  unfold rndHalfEven; split_ifs <;> omega

theorem rndHalfEven_mono {x y : ℚ} (h : x ≤ y) : rndHalfEven x ≤ rndHalfEven y := by
  rcases lt_or_eq_of_le (Int.floor_le_floor h) with hf | hf
  · have hx := rndHalfEven_le_floor_add_one x
    have hy := rndHalfEven_floor_le y
    omega
  · have hr : x - (⌊x⌋ : ℚ) ≤ y - (⌊y⌋ : ℚ) := by
      rw [← hf]; linarith
    unfold rndHalfEven
    rw [← hf]
    split_ifs <;> first | omega | (exfalso; linarith)

theorem pyRound2_le (x : ℚ) : pyRound2 x ≤ x + 1/200 := by
  have := rndHalfEven_le (100 * x)
  unfold pyRound2
  linarith

theorem le_pyRound2 (x : ℚ) : x - 1/200 ≤ pyRound2 x := by
  have := le_rndHalfEven (100 * x)
  unfold pyRound2
  linarith

theorem pyRound3_le (x : ℚ) : pyRound3 x ≤ x + 1/2000 := by
  have := rndHalfEven_le (1000 * x)
  unfold pyRound3
  linarith

theorem le_pyRound3 (x : ℚ) : x - 1/2000 ≤ pyRound3 x := by
  have := le_rndHalfEven (1000 * x)
  unfold pyRound3
  linarith

theorem pyRound2_mono {x y : ℚ} (h : x ≤ y) : pyRound2 x ≤ pyRound2 y := by
  unfold pyRound2
  have : rndHalfEven (100 * x) ≤ rndHalfEven (100 * y) :=
    rndHalfEven_mono (by linarith)
  have : (rndHalfEven (100 * x) : ℚ) ≤ (rndHalfEven (100 * y) : ℚ) := by
    exact_mod_cast this
  linarith

theorem pyRound3_mono {x y : ℚ} (h : x ≤ y) : pyRound3 x ≤ pyRound3 y := by
  unfold pyRound3
  have : rndHalfEven (1000 * x) ≤ rndHalfEven (1000 * y) :=
    rndHalfEven_mono (by linarith)
  have : (rndHalfEven (1000 * x) : ℚ) ≤ (rndHalfEven (1000 * y) : ℚ) := by
    exact_mod_cast this
  linarith

theorem pyRound2_lt_of_half_le {x y : ℚ} (h : x + 1/2 ≤ y) : pyRound2 x < pyRound2 y := by
  have hx := rndHalfEven_le (100 * x)
  have hy := le_rndHalfEven (100 * y)
  have : (rndHalfEven (100 * x) : ℚ) < (rndHalfEven (100 * y) : ℚ) := by linarith
  unfold pyRound2
  have h100 : (0:ℚ) < 100 := by norm_num
  exact div_lt_div_of_pos_right this h100

theorem pyRound3_idem (x : ℚ) : pyRound3 (pyRound3 x) = pyRound3 x := by
  unfold pyRound3
  have h : (1000 : ℚ) * ((rndHalfEven (1000 * x) : ℚ) / 1000) = ((rndHalfEven (1000 * x) : ℤ) : ℚ) := by
    field_simp
  rw [h, rndHalfEven_intCast]

/-! ## Data model

`Cue` is the timed-subtitle record produced by
`Wav2Vec2Timer.find_subtitle_times` (`step2_wav2vec2_timing.py`,
lines 121–127) and consumed by steps 3 and 4:
`{"index", "text", "start", "end", "confidence"}`. -/

structure Cue where
  index : ℤ
  text : String
  start : ℚ
  «end» : ℚ
  confidence : String
deriving DecidableEq, Repr

/-- A transcription chunk `{"start", "end", "text", ...}` as produced by
`transcribe_with_timestamps` and consumed by `find_subtitle_times`. -/
structure Chunk where
  start : ℚ
  «end» : ℚ
  text : String
deriving DecidableEq, Repr

/-! ## Step 2: `Wav2Vec2Timer.find_subtitle_times`
(`step2_wav2vec2_timing.py`, lines 87–134) -/

/-- `total_text_length = sum(len(subtitle) for subtitle in subtitles)`
(line 97). -/
def totalTextLength (subtitles : List String) : ℕ :=
  (subtitles.map String.length).sum

/-- One cue's duration (lines 104–112):
`duration = min(max(0.5, (text_length / total_text_length) * total_duration), 5.0)`. -/
def cueDuration (T : ℕ) (D : ℚ) (s : String) : ℚ :=
  min (max (1/2) (((s.length : ℚ) / (T : ℚ)) * D)) 5

/-- The allocation loop of `find_subtitle_times` (lines 102–133).
`T` is `total_text_length`, `n = len(subtitles)`, `D = total_duration`,
`i` the loop index and `cur` the running `current_time`.  The final cue's
end is overridden to `total_duration` (lines 118–119); `current_time`
advances to the (post-override) `end_time` (line 129); both timestamps
are stored rounded to two decimals (lines 124–125). -/
def ftLoop (T n : ℕ) (D : ℚ) : ℕ → ℚ → List String → List Cue
  | _, _, [] => []
  | i, cur, s :: rest =>
    let e := if i = n - 1 then D else cur + cueDuration T D s
    { index := (i : ℤ) + 1, text := s, start := pyRound2 cur,
      «end» := pyRound2 e, confidence := "estimated" }
      :: ftLoop T n D (i + 1) e rest

/-- `Wav2Vec2Timer.find_subtitle_times(subtitles, transcriptions)`.
Returns `none` where the Python code raises:
* `transcriptions[-1]` on an empty list raises `IndexError` (line 94);
* with a non-empty `subtitles` whose total text length is zero the first
  loop iteration raises `ZeroDivisionError` at
  `text_length / total_text_length` (line 108).
An empty `subtitles` list never enters the loop, so the division is not
executed and the empty result is returned. -/
def find_subtitle_times (subtitles : List String) (transcriptions : List Chunk) :
    Option (List Cue) :=
  match transcriptions.getLast? with
  | none => none
  | some lastChunk =>
    match subtitles with
    | [] => some []
    | _ :: _ =>
      if totalTextLength subtitles = 0 then none
      else some (ftLoop (totalTextLength subtitles) subtitles.length
        lastChunk.«end» 0 0 subtitles)

theorem half_le_cueDuration (T : ℕ) (D : ℚ) (s : String) : 1/2 ≤ cueDuration T D s :=
  le_min (le_max_left _ _) (by norm_num)

/-- Main invariant of the allocation loop: on a non-empty suffix starting
at loop index `i` with `i + length = n`, the produced cues are contiguous,
have strictly increasing starts, all non-final cues satisfy
`start < end`, the first start is `round(cur, 2)` and the last end is
`round(D, 2)`. -/
theorem ftLoop_spec (T n : ℕ) (D : ℚ) :
    ∀ (ss : List String) (i : ℕ) (cur : ℚ), ss ≠ [] → i + ss.length = n →
      (ftLoop T n D i cur ss).length = ss.length ∧
      (ftLoop T n D i cur ss).head?.map Cue.start = some (pyRound2 cur) ∧
      List.Chain' (fun a b => a.«end» = b.start) (ftLoop T n D i cur ss) ∧
      List.Chain' (fun a b => a.start < b.start) (ftLoop T n D i cur ss) ∧
      (∀ c ∈ (ftLoop T n D i cur ss).dropLast, c.start < c.«end») ∧
      (ftLoop T n D i cur ss).getLast?.map Cue.«end» = some (pyRound2 D) := by
  intro ss
  induction ss with
  | nil => intro i cur hne _; exact absurd rfl hne
  | cons s rest ih =>
    intro i cur _ hlen
    cases rest with
    | nil =>
      have hi : i = n - 1 := by
        simp only [List.length_cons, List.length_nil] at hlen
        omega
      simp [ftLoop, hi]
    | cons s2 rest2 =>
      have hi : ¬ (i = n - 1) := by
        simp only [List.length_cons] at hlen
        omega
      have hlen' : (i + 1) + (s2 :: rest2).length = n := by
        simp only [List.length_cons] at hlen ⊢
        omega
      obtain ⟨ihlen, ihhead, ihchain, ihsorted, ihmid, ihlast⟩ :=
        ih (i + 1) (cur + cueDuration T D s) (List.cons_ne_nil _ _) hlen'
      set L := ftLoop T n D (i + 1) (cur + cueDuration T D s) (s2 :: rest2) with hL
      have hLne : L ≠ [] := by
        intro hnil
        rw [hnil] at ihlen
        simp at ihlen
      have hstep : cur + 1/2 ≤ cur + cueDuration T D s := by
        have := half_le_cueDuration T D s
        linarith
      have hlt : pyRound2 cur < pyRound2 (cur + cueDuration T D s) :=
        pyRound2_lt_of_half_le hstep
      have hunfold : ftLoop T n D i cur (s :: s2 :: rest2) =
          { index := (i : ℤ) + 1, text := s, start := pyRound2 cur,
            «end» := pyRound2 (cur + cueDuration T D s),
            confidence := "estimated" } :: L := by
        simp only [ftLoop, hi, if_false, hL]
      rw [hunfold]
      obtain ⟨x, xs, hxs⟩ : ∃ x xs, L = x :: xs := by
        cases hLx : L with
        | nil => exact absurd hLx hLne
        | cons x xs => exact ⟨x, xs, rfl⟩
      refine ⟨by simp [ihlen.symm, hxs], by simp, ?_, ?_, ?_, ?_⟩
      · rw [List.chain'_cons']
        refine ⟨?_, ihchain⟩
        intro y hy
        rw [hxs] at hy ihhead
        simp only [List.head?_cons, Option.mem_def, Option.some.injEq] at hy
        have hx : x.start = pyRound2 (cur + cueDuration T D s) := by
          simpa using ihhead
        subst hy
        exact hx.symm
      · rw [List.chain'_cons']
        refine ⟨?_, ihsorted⟩
        intro y hy
        rw [hxs] at hy ihhead
        simp only [List.head?_cons, Option.mem_def, Option.some.injEq] at hy
        have hx : x.start = pyRound2 (cur + cueDuration T D s) := by
          simpa using ihhead
        subst hy
        rw [hx]
        exact hlt
      · rw [hxs, List.dropLast_cons₂]
        intro c hc
        rcases List.mem_cons.mp hc with hc | hc
        · subst hc
          exact hlt
        · exact ihmid c (by rw [hxs]; exact hc)
      · rw [hxs] at ihlast ⊢
        rw [List.getLast?_cons_cons]
        exact ihlast

/-- **C1** (amended).  For every non-empty cue list whose total text
length is positive (so that the allocation succeeds), the proportional
fallback outputs cues that are contiguous (`end[i] = start[i+1]`) and
sorted (strictly increasing starts), every cue except possibly the
final one has `start < end`, and the final cue's `end` equals
`total_duration` rounded to two decimals.  (The original claim — all
cues satisfy `start < end` and the final `end` equals `total_duration`
exactly — fails: see the counterexample.) -/
theorem C1_allocator_contiguous_sorted
    (subtitles : List String) (transcriptions : List Chunk)
    (res : List Cue) (lastChunk : Chunk)
    (hres : find_subtitle_times subtitles transcriptions = some res)
    (hne : subtitles ≠ [])
    (hlast : transcriptions.getLast? = some lastChunk) :
    List.Chain' (fun a b => a.«end» = b.start) res ∧
    List.Chain' (fun a b => a.start < b.start) res ∧
    (∀ c ∈ res.dropLast, c.start < c.«end») ∧
    res.getLast?.map Cue.«end» = some (pyRound2 lastChunk.«end») := by
  cases subtitles with
  | nil => exact absurd rfl hne
  | cons s rest =>
    simp only [find_subtitle_times, hlast] at hres
    by_cases hT : totalTextLength (s :: rest) = 0
    · rw [if_pos hT] at hres
      exact absurd hres (by simp)
    · rw [if_neg hT] at hres
      have hres' : res = ftLoop (totalTextLength (s :: rest)) (s :: rest).length
          lastChunk.«end» 0 0 (s :: rest) := by
        exact (Option.some.injEq _ _).mp hres.symm
      obtain ⟨_, _, hc, hs, hm, hl⟩ :=
        ftLoop_spec (totalTextLength (s :: rest)) (s :: rest).length
          lastChunk.«end» (s :: rest) 0 0 (List.cons_ne_nil _ _) (by simp)
      rw [hres']
      exact ⟨hc, hs, hm, hl⟩

/-- Witness for C1 at a concrete input: two cues of lengths 2 and 2
against a single transcription chunk ending at 10 s. -/
theorem C1_allocator_contiguous_sorted_witness :
    List.Chain' (fun a b => a.«end» = b.start)
      ([⟨1, "ab", 0, 5, "estimated"⟩, ⟨2, "cd", 5, 10, "estimated"⟩] : List Cue) ∧
    List.Chain' (fun a b => a.start < b.start)
      ([⟨1, "ab", 0, 5, "estimated"⟩, ⟨2, "cd", 5, 10, "estimated"⟩] : List Cue) ∧
    (∀ c ∈ ([⟨1, "ab", 0, 5, "estimated"⟩, ⟨2, "cd", 5, 10, "estimated"⟩] : List Cue).dropLast,
      c.start < c.«end») ∧
    ([⟨1, "ab", 0, 5, "estimated"⟩, ⟨2, "cd", 5, 10, "estimated"⟩] : List Cue).getLast?.map
      Cue.«end» = some (pyRound2 (10 : ℚ)) := by
  refine C1_allocator_contiguous_sorted ["ab", "cd"] [⟨0, 10, ""⟩] _ ⟨0, 10, ""⟩ ?_
    (by simp) rfl
  have hT : totalTextLength ["ab", "cd"] = 4 := rfl
  have ha : ("ab" : String).length = 2 := rfl
  have hc : ("cd" : String).length = 2 := rfl
  simp only [find_subtitle_times, List.getLast?, hT, ftLoop, cueDuration, ha, hc,
    List.length_cons, List.length_nil]
  norm_num [pyRound2, rndHalfEven, max_def, min_def, Int.fract]

/-- Counterexample to C1 as stated: one cue of length 1 against a chunk
ending at `0.001` s.  The allocator outputs the single cue
`[0.0, 0.0]`, violating `start < end`, and its end `0.0` differs from
`total_duration = 0.001`. -/
theorem C1_counterexample :
    find_subtitle_times ["a"] [⟨0, 1/1000, ""⟩] =
      some [⟨1, "a", 0, 0, "estimated"⟩] ∧
    ¬ ((0 : ℚ) < 0) ∧ (0 : ℚ) ≠ 1/1000 := by
  refine ⟨?_, by norm_num, by norm_num⟩
  have hT : totalTextLength ["a"] = 1 := rfl
  have ha : ("a" : String).length = 1 := rfl
  simp only [find_subtitle_times, List.getLast?, hT, ftLoop, cueDuration, ha,
    List.length_cons, List.length_nil]
  norm_num [pyRound2, rndHalfEven, max_def, min_def, Int.fract]

/-- **C8** (amended).  For audio duration 100.0 s and two cues of text
lengths 10 and 30, the proportional duration of the first cue is
`(10/40)·100 = 25.0`, clamped to the 5.0 s maximum; with the final-cue
override the output is first cue `[0.0, 5.0]`, second cue
`[5.0, 100.0]`.  (The spec's `2.5`/`7.5` figures are off by a factor of
ten: see the counterexample.) -/
theorem C8_example_allocation :
    (find_subtitle_times ["aaaaaaaaaa", "bbbbbbbbbbbbbbbbbbbbbbbbbbbbbb"]
        [⟨0, 100, ""⟩]).map (List.map fun c => (c.start, c.«end»)) =
      some [((0 : ℚ), (5 : ℚ)), ((5 : ℚ), (100 : ℚ))] := by
  have hT : totalTextLength ["aaaaaaaaaa", "bbbbbbbbbbbbbbbbbbbbbbbbbbbbbb"] = 40 := rfl
  have hl1 : ("aaaaaaaaaa" : String).length = 10 := rfl
  have hl2 : ("bbbbbbbbbbbbbbbbbbbbbbbbbbbbbb" : String).length = 30 := rfl
  simp only [find_subtitle_times, List.getLast?, hT, ftLoop, cueDuration, hl1, hl2,
    List.length_cons, List.length_nil]
  norm_num [pyRound2, rndHalfEven, max_def, min_def, Int.fract]

/-- Counterexample to C8 as stated: on the spec's example input the
first cue is **not** `[0.0, 2.5]` (and the second is not
`[2.5, 100.0]`): the code produces `[0.0, 5.0]` and `[5.0, 100.0]`. -/
theorem C8_counterexample :
    (find_subtitle_times ["aaaaaaaaaa", "bbbbbbbbbbbbbbbbbbbbbbbbbbbbbb"]
        [⟨0, 100, ""⟩]).map (List.map fun c => (c.start, c.«end»)) ≠
      some [((0 : ℚ), (5/2 : ℚ)), ((5/2 : ℚ), (100 : ℚ))] := by
  have hT : totalTextLength ["aaaaaaaaaa", "bbbbbbbbbbbbbbbbbbbbbbbbbbbbbb"] = 40 := rfl
  have hl1 : ("aaaaaaaaaa" : String).length = 10 := rfl
  have hl2 : ("bbbbbbbbbbbbbbbbbbbbbbbbbbbbbb" : String).length = 30 := rfl
  simp only [find_subtitle_times, List.getLast?, hT, ftLoop, cueDuration, hl1, hl2,
    List.length_cons, List.length_nil]
  norm_num [pyRound2, rndHalfEven, max_def, min_def, Int.fract]

/-- **C10** (amended).  With a non-empty transcription list:
a non-empty subtitle list of positive total text length always yields a
result (the division-by-zero branch is unreachable); a non-empty
subtitle list whose texts are all empty fails with `ZeroDivisionError`;
but an **empty** subtitle list returns an empty result without error,
because the division sits inside the per-subtitle loop.  (The original
claim — that an empty subtitle list also raises `ZeroDivisionError` —
is false: see the counterexample.) -/
theorem C10_division_guard
    (subtitles : List String) (transcriptions : List Chunk)
    (h : transcriptions ≠ []) :
    (subtitles = [] → find_subtitle_times subtitles transcriptions = some []) ∧
    (0 < totalTextLength subtitles →
      (find_subtitle_times subtitles transcriptions).isSome) ∧
    (subtitles ≠ [] → totalTextLength subtitles = 0 →
      find_subtitle_times subtitles transcriptions = none) := by
  obtain ⟨lastChunk, hlast⟩ : ∃ c, transcriptions.getLast? = some c := by
    cases htr : transcriptions.getLast? with
    | none => exact absurd (List.getLast?_eq_none_iff.mp htr) h
    | some c => exact ⟨c, rfl⟩
  refine ⟨?_, ?_, ?_⟩
  · rintro rfl
    simp [find_subtitle_times, hlast]
  · intro hT
    cases subtitles with
    | nil => simp [find_subtitle_times, hlast]
    | cons s rest =>
      simp only [find_subtitle_times, hlast]
      rw [if_neg (by omega)]
      simp
  · intro hne hT
    cases subtitles with
    | nil => exact absurd rfl hne
    | cons s rest =>
      simp only [find_subtitle_times, hlast]
      rw [if_pos hT]

/-- Witness for C10 at concrete inputs. -/
theorem C10_division_guard_witness :
    ((["a"] : List String) = [] → find_subtitle_times ["a"] [⟨0, 1, ""⟩] = some []) ∧
    (0 < totalTextLength ["a"] → (find_subtitle_times ["a"] [⟨0, 1, ""⟩]).isSome) ∧
    ((["a"] : List String) ≠ [] → totalTextLength ["a"] = 0 →
      find_subtitle_times ["a"] [⟨0, 1, ""⟩] = none) :=
  C10_division_guard ["a"] [⟨0, 1, ""⟩] (by simp)

/-- Counterexample to C10 as stated: with a non-empty transcription list
and an **empty** subtitle list, `find_subtitle_times` returns the empty
result instead of failing — the division inside the loop body is never
executed. -/
theorem C10_counterexample :
    find_subtitle_times [] [⟨0, 1, ""⟩] = some [] := by
  simp [find_subtitle_times, List.getLast?]

/-! ## Step 3: `WebVTTGenerator.validate_subtitle_timing`
(`step3_generate_vtt.py`, lines 28–54) -/

/-- One iteration of the repair loop (lines 34–52).  `prev` is
`validated[-1]["end"]` (already rounded), or `none` on the first
iteration:
```
if start >= end: end = start + 0.5
if i > 0 and start < validated[-1]["end"]:
    start = validated[-1]["end"]
    if start >= end: end = start + 0.5
validated_subtitle = subtitle.copy()
validated_subtitle["start"] = round(start, 3)
validated_subtitle["end"] = round(end, 3)
```
-/
def repairStep (prev : Option ℚ) (c : Cue) : Cue :=
  let e1 := if c.«end» ≤ c.start then c.start + 1/2 else c.«end»
  match prev with
  | none => { c with start := pyRound3 c.start, «end» := pyRound3 e1 }
  | some prevEnd =>
    if c.start < prevEnd then
      let e2 := if e1 ≤ prevEnd then prevEnd + 1/2 else e1
      { c with start := pyRound3 prevEnd, «end» := pyRound3 e2 }
    else
      { c with start := pyRound3 c.start, «end» := pyRound3 e1 }

/-- The repair loop over the cue list, threading the previous output
cue's (rounded) end time. -/
def vstLoop (prev : Option ℚ) : List Cue → List Cue
  | [] => []
  | c :: rest =>
    let c' := repairStep prev c
    c' :: vstLoop (some c'.«end») rest

/-- `WebVTTGenerator.validate_subtitle_timing(subtitles)`. -/
def validate_subtitle_timing (subtitles : List Cue) : List Cue :=
  vstLoop none subtitles

theorem repairStep_frame (prev : Option ℚ) (c : Cue) :
    (repairStep prev c).index = c.index ∧ (repairStep prev c).text = c.text ∧
      (repairStep prev c).confidence = c.confidence := by
  unfold repairStep
  cases prev with
  | none => exact ⟨rfl, rfl, rfl⟩
  | some pe =>
    dsimp only
    split_ifs <;> exact ⟨rfl, rfl, rfl⟩

theorem repairStep_rounded (prev : Option ℚ) (c : Cue) :
    pyRound3 (repairStep prev c).start = (repairStep prev c).start ∧
      pyRound3 (repairStep prev c).«end» = (repairStep prev c).«end» := by
  unfold repairStep
  cases prev with
  | none => exact ⟨pyRound3_idem _, pyRound3_idem _⟩
  | some pe =>
    dsimp only
    split_ifs <;> exact ⟨pyRound3_idem _, pyRound3_idem _⟩

theorem repairStep_start_le_end (prev : Option ℚ) (c : Cue) :
    (repairStep prev c).start ≤ (repairStep prev c).«end» := by
  unfold repairStep
  cases prev with
  | none =>
    dsimp only
    split_ifs <;> (apply pyRound3_mono; linarith)
  | some prevEnd =>
    dsimp only
    split_ifs <;> (apply pyRound3_mono; linarith)

theorem repairStep_prev_le (prevEnd : ℚ) (c : Cue)
    (hfix : pyRound3 prevEnd = prevEnd) :
    prevEnd ≤ (repairStep (some prevEnd) c).start := by
  unfold repairStep
  dsimp only
  split_ifs <;>
    first
      | exact le_of_eq hfix.symm
      | (have h := pyRound3_mono (show prevEnd ≤ c.start by linarith)
         rw [hfix] at h
         exact h)

/-- Invariant of the repair loop: given a round-3-fixed previous end,
the output chain is non-overlapping, its first start is at least the
previous end, and every output cue has `start ≤ end` with both
timestamps round-3-fixed. -/
theorem vstLoop_spec :
    ∀ (l : List Cue) (prev : Option ℚ),
      (∀ pe, prev = some pe → pyRound3 pe = pe) →
      List.Chain' (fun a b => a.«end» ≤ b.start) (vstLoop prev l) ∧
      (∀ pe, prev = some pe → ∀ c ∈ (vstLoop prev l).head?, pe ≤ c.start) ∧
      (∀ c ∈ vstLoop prev l,
        c.start ≤ c.«end» ∧ pyRound3 c.start = c.start ∧ pyRound3 c.«end» = c.«end») := by
  intro l
  induction l with
  | nil => intro prev _; refine ⟨List.chain'_nil, ?_, ?_⟩ <;> simp [vstLoop]
  | cons c rest ih =>
    intro prev hprev
    have hfix := repairStep_rounded prev c
    obtain ⟨ihchain, ihhead, ihall⟩ :=
      ih (some (repairStep prev c).«end») (by
        intro pe hpe
        injection hpe with hpe
        rw [← hpe]
        exact hfix.2)
    have hunfold : vstLoop prev (c :: rest) =
        repairStep prev c :: vstLoop (some (repairStep prev c).«end») rest := rfl
    rw [hunfold]
    refine ⟨?_, ?_, ?_⟩
    · rw [List.chain'_cons']
      refine ⟨?_, ihchain⟩
      intro y hy
      have := ihhead (repairStep prev c).«end» rfl y hy
      exact this
    · intro pe hpe x hx
      simp only [List.head?_cons, Option.mem_def, Option.some.injEq] at hx
      subst hx
      exact repairStep_prev_le pe c (hprev pe hpe) |>.trans_eq (by rw [hpe])
    · intro x hx
      rcases List.mem_cons.mp hx with hx | hx
      · subst hx
        exact ⟨repairStep_start_le_end prev c, hfix.1, hfix.2⟩
      · exact ihall x hx

/-- **C3** (amended).  After the repair pass no two consecutive cues
overlap (each cue's start is at least the previous cue's end) and every
cue satisfies `start ≤ end`.  (The original claim's blanket
`end - start ≥ 0.5` fails: the minimum duration is only enforced on
cues that needed repair — see the counterexample.) -/
theorem C3_repair_no_overlap (subtitles : List Cue) :
    List.Chain' (fun a b => a.«end» ≤ b.start)
      (validate_subtitle_timing subtitles) ∧
    ∀ c ∈ validate_subtitle_timing subtitles, c.start ≤ c.«end» := by
  obtain ⟨hchain, _, hall⟩ := vstLoop_spec subtitles none (by intro pe hpe; cases hpe)
  exact ⟨hchain, fun c hc => (hall c hc).1⟩

/-- Counterexample to C3 as stated: a single cue `[0, 0.1]` needs no
repair and is returned with duration `0.1 < 0.5`. -/
theorem C3_counterexample :
    validate_subtitle_timing [⟨1, "x", 0, 1/10, "estimated"⟩] =
      [⟨1, "x", 0, 1/10, "estimated"⟩] ∧
    ¬ ((1/2 : ℚ) ≤ 1/10 - 0) := by
  constructor
  · norm_num [validate_subtitle_timing, vstLoop, repairStep, pyRound3, rndHalfEven]
  · norm_num

/-- Map-frame lemma for the repair loop: the (index, text, confidence)
projection of the output equals that of the input. -/
theorem vstLoop_map_frame :
    ∀ (l : List Cue) (prev : Option ℚ),
      (vstLoop prev l).map (fun c => (c.index, c.text, c.confidence)) =
        l.map (fun c => (c.index, c.text, c.confidence)) := by
  intro l
  induction l with
  | nil => intro prev; rfl
  | cons c rest ih =>
    intro prev
    have hframe := repairStep_frame prev c
    simp only [vstLoop, List.map_cons, ih, hframe.1, hframe.2.1, hframe.2.2]

/-- **C9** (confirmed).  The repair pass returns a list of the same
length and order in which each element keeps the input cue's `index`,
`text` and `confidence`; only `start` and `end` are (possibly) changed,
and both are values rounded to 3 decimal places. -/
theorem C9_repair_frame (subtitles : List Cue) :
    (validate_subtitle_timing subtitles).length = subtitles.length ∧
    (validate_subtitle_timing subtitles).map (fun c => (c.index, c.text, c.confidence)) =
      subtitles.map (fun c => (c.index, c.text, c.confidence)) ∧
    ∀ c ∈ validate_subtitle_timing subtitles,
      pyRound3 c.start = c.start ∧ pyRound3 c.«end» = c.«end» := by
  refine ⟨?_, vstLoop_map_frame subtitles none, ?_⟩
  · have h := congrArg List.length (vstLoop_map_frame subtitles none)
    simpa using h
  · intro c hc
    obtain ⟨_, _, hall⟩ := vstLoop_spec subtitles none (by intro pe hpe; cases hpe)
    exact ⟨(hall c hc).2.1, (hall c hc).2.2⟩

/-- If every cue of `l` already satisfies `start < end`, has round-3-fixed
timestamps, the chain is non-overlapping and the first start is at least
the previous end, then the repair loop is the identity on `l`. -/
theorem vstLoop_id :
    ∀ (l : List Cue) (prev : Option ℚ),
      (∀ c ∈ l, c.start < c.«end» ∧ pyRound3 c.start = c.start ∧ pyRound3 c.«end» = c.«end») →
      List.Chain' (fun a b => a.«end» ≤ b.start) l →
      (∀ pe, prev = some pe → ∀ c ∈ l.head?, pe ≤ c.start) →
      vstLoop prev l = l := by
  intro l
  induction l with
  | nil => intro prev _ _ _; rfl
  | cons c rest ih =>
    intro prev hall hchain hhead
    obtain ⟨hlt, hfs, hfe⟩ := hall c (List.mem_cons_self _ _)
    have hstep : repairStep prev c = c := by
      unfold repairStep
      cases prev with
      | none =>
        dsimp only
        rw [if_neg (by linarith)]
        rw [hfs, hfe]
      | some pe =>
        have hpe : pe ≤ c.start := hhead pe rfl c (by simp)
        dsimp only
        rw [if_neg (by linarith), if_neg (by linarith)]
        rw [hfs, hfe]
    have hrest : vstLoop (some (repairStep prev c).«end») rest = rest := by
      apply ih
      · intro x hx; exact hall x (List.mem_cons_of_mem _ hx)
      · exact (List.chain'_cons'.mp hchain).2
      · intro pe hpe x hx
        injection hpe with hpe
        rw [← hpe, hstep]
        simp only [Option.mem_def] at hx
        have := (List.chain'_cons'.mp hchain).1 x hx
        exact this
    rw [hstep] at hrest
    show repairStep prev c :: vstLoop (some (repairStep prev c).«end») rest = c :: rest
    rw [hstep, hrest]

/-- **C6** (amended).  The repair pass is idempotent on every cue list
whose repaired form has strictly positive durations (`start < end` for
every output cue).  (Unconditional idempotence fails: rounding to 3
decimals can collapse a positive duration below 0.5 ms to zero, and a
second pass then extends that cue by 0.5 s — see the counterexample.) -/
theorem C6_repair_idempotent (subtitles : List Cue)
    (h : ∀ c ∈ validate_subtitle_timing subtitles, c.start < c.«end») :
    validate_subtitle_timing (validate_subtitle_timing subtitles) =
      validate_subtitle_timing subtitles := by
  obtain ⟨hchain, _, hall⟩ := vstLoop_spec subtitles none (by intro pe hpe; cases hpe)
  apply vstLoop_id
  · intro c hc
    exact ⟨h c hc, (hall c hc).2.1, (hall c hc).2.2⟩
  · exact hchain
  · intro pe hpe; cases hpe

/-- Witness for C6: a cue `[0, 1]` is already legal, the repaired list
satisfies the positivity hypothesis, and a second pass is the identity. -/
theorem C6_repair_idempotent_witness :
    validate_subtitle_timing (validate_subtitle_timing [⟨1, "a", 0, 1, "estimated"⟩]) =
      validate_subtitle_timing [⟨1, "a", 0, 1, "estimated"⟩] := by
  refine C6_repair_idempotent [⟨1, "a", 0, 1, "estimated"⟩] ?_
  have heval : validate_subtitle_timing [⟨1, "a", 0, 1, "estimated"⟩] =
      [⟨1, "a", 0, 1, "estimated"⟩] := by
    norm_num [validate_subtitle_timing, vstLoop, repairStep, pyRound3, rndHalfEven]
  rw [heval]
  intro c hc
  simp only [List.mem_singleton] at hc
  subst hc
  norm_num

/-- Counterexample to C6 as stated: the cue `[0, 0.0001]` is repaired to
`[0.0, 0.0]` by rounding, and a second pass turns that into
`[0.0, 0.5]`, so repair∘repair ≠ repair. -/
theorem C6_counterexample :
    validate_subtitle_timing (validate_subtitle_timing [⟨1, "x", 0, 1/10000, "estimated"⟩]) ≠
      validate_subtitle_timing [⟨1, "x", 0, 1/10000, "estimated"⟩] := by
  have h1 : validate_subtitle_timing [⟨1, "x", 0, 1/10000, "estimated"⟩] =
      [⟨1, "x", 0, 0, "estimated"⟩] := by
    norm_num [validate_subtitle_timing, vstLoop, repairStep, pyRound3, rndHalfEven]
  have h2 : validate_subtitle_timing [⟨1, "x", 0, 0, "estimated"⟩] =
      [⟨1, "x", 0, 1/2, "estimated"⟩] := by
    norm_num [validate_subtitle_timing, vstLoop, repairStep, pyRound3, rndHalfEven]
  rw [h1, h2]
  intro hcontra
  simp only [List.cons.injEq, Cue.mk.injEq] at hcontra
  norm_num at hcontra

/-! ## String utilities shared by steps 1 and 3

Python string primitives (`str.strip`, `str.split`, `re.sub(r'\s+', …)`)
modelled structurally on `List Char` so that they both evaluate on
concrete inputs and support induction. -/

/-- The whitespace characters recognised by Python's `str.strip` and the
regex class `\s` (ASCII range; the pipeline's data is text with ordinary
spaces, tabs and newlines). -/
def isWS (c : Char) : Bool :=
  c = ' ' || c = '\t' || c = '\n' || c = '\r' || c = '\x0b' || c = '\x0c'

/-- `str.lstrip()` on the character list. -/
def pyStripL (l : List Char) : List Char := l.dropWhile isWS

/-- `str.rstrip()` on the character list. -/
def pyStripR (l : List Char) : List Char := (l.reverse.dropWhile isWS).reverse

/-- `str.strip()` on the character list (trim the right end, then the
left end — equivalent to Python's both-ends trim). -/
def pyStripChars (l : List Char) : List Char := pyStripL (pyStripR l)

/-- `str.strip()` on strings. -/
def pyStrip (s : String) : String := ⟨pyStripChars s.data⟩

/-- `s.split('\n')` on the character list: split at every newline,
keeping empty parts (Python `str.split` with an explicit separator). -/
def splitNl : List Char → List (List Char)
  | [] => [[]]
  | c :: rest =>
    if c = '\n' then [] :: splitNl rest
    else
      match splitNl rest with
      | h :: t => (c :: h) :: t
      | [] => [[c]]

/-- `s.split('\n\n')` on the character list: split at every
non-overlapping occurrence of two consecutive newlines, left to right
(Python `str.split` with separator `"\n\n"`). -/
def splitDoubleNl : List Char → List (List Char)
  | [] => [[]]
  | '\n' :: '\n' :: rest => [] :: splitDoubleNl rest
  | c :: rest =>
    match splitDoubleNl rest with
    | h :: t => (c :: h) :: t
    | [] => [[c]]

/-- `s.split('\n')` on strings. -/
def pySplitNl (s : String) : List String := (splitNl s.data).map (fun l => ⟨l⟩)

/-- `s.split('\n\n')` on strings. -/
def pySplitDoubleNl (s : String) : List String := (splitDoubleNl s.data).map (fun l => ⟨l⟩)

/-- `re.sub(r'\s+', '', text)`: delete every whitespace character. -/
def removeWS (l : List Char) : List Char := l.filter (fun c => !isWS c)

theorem dropWhile_eq_self_of_forall {p : Char → Bool} {l : List Char}
    (h : ∀ c ∈ l, p c = false) : l.dropWhile p = l := by
  cases l with
  | nil => rfl
  | cons a rest =>
    rw [List.dropWhile_cons, if_neg]
    simp [h a (List.mem_cons_self _ _)]

theorem pyStripChars_eq_self {l : List Char} (h : ∀ c ∈ l, isWS c = false) :
    pyStripChars l = l := by
  unfold pyStripChars pyStripL pyStripR
  have h1 : List.dropWhile isWS l.reverse = l.reverse :=
    dropWhile_eq_self_of_forall (fun c hc => h c (List.mem_reverse.mp hc))
  rw [h1, List.reverse_reverse, dropWhile_eq_self_of_forall h]

/-! ## Step 1: `GeminiTextSplitter` (`step1_gemini_text_split.py`) -/

/-- `GeminiTextSplitter.normalize_text` (lines 75–81):
`re.sub(r'\s+', '', text)` followed by `.strip()`. -/
def normalize_text (text : String) : String :=
  pyStrip ⟨removeWS text.data⟩

/-- `GeminiTextSplitter.validate_content_integrity` (lines 83–126):
normalize the original, normalize the concatenation of the pieces, and
compare for equality.  (The debug-dump written on mismatch is an I/O
side effect outside the returned value.) -/
def validate_content_integrity (original_text : String) (split_texts : List String) : Bool :=
  normalize_text original_text == normalize_text (String.join split_texts)

/-- Spec-side normalization, following the spec's words: "strip all
whitespace/newlines" from a string, i.e. delete every whitespace
character. -/
def strippedOfWhitespace (s : String) : List Char :=
  s.data.filter (fun c => !isWS c)

/-- **C4** (confirmed).  The Integrity Validator returns `true` iff the
original with all whitespace and newlines deleted is character-for-
character equal to the concatenation of the pieces with all whitespace
and newlines deleted. -/
theorem C4_integrity_iff (original_text : String) (split_texts : List String) :
    validate_content_integrity original_text split_texts = true ↔
      strippedOfWhitespace original_text =
        strippedOfWhitespace (String.join split_texts) := by
  have hnorm : ∀ s : String, normalize_text s = ⟨strippedOfWhitespace s⟩ := by
    intro s
    unfold normalize_text pyStrip strippedOfWhitespace removeWS
    congr 1
    apply pyStripChars_eq_self
    intro c hc
    have := List.of_mem_filter hc
    simpa using this
  unfold validate_content_integrity
  rw [hnorm, hnorm, beq_iff_eq]
  constructor
  · intro h
    exact congrArg String.data h
  · intro h
    show String.mk _ = String.mk _
    rw [h]

/-- The four fatal exits of `split_and_refine_text`
(`step1_gemini_text_split.py`, lines 147–169): each corresponds to a
`sys.exit(1)` call. -/
inductive SplitError where
  | geminiSplitFailure
  | contentMismatch
  | tooManyLines (piece : ℕ)
  | lineTooLong (piece line : ℕ)
deriving DecidableEq, Repr

/-- The per-line limit check (lines 165–169): first line longer than 25
characters in piece `i`, scanning lines from index `j`. -/
def checkLines (i : ℕ) : ℕ → List String → Option SplitError
  | _, [] => none
  | j, line :: rest =>
    if 25 < line.length then some (.lineTooLong i j)
    else checkLines i (j + 1) rest

/-- The per-piece limit check (lines 157–169): reject a piece with more
than 3 lines, then reject any line longer than 25 characters. -/
def checkPieces : ℕ → List String → Option SplitError
  | _, [] => none
  | i, part :: rest =>
    if 3 < (pySplitNl part).length then some (.tooManyLines i)
    else
      match checkLines i 0 (pySplitNl part) with
      | some e => some e
      | none => checkPieces (i + 1) rest

/-- `split_texts = [part.strip() for part in refined_result.split('\n\n') if part.strip()]`
(line 145). -/
def refinedPieces (refined_result : String) : List String :=
  ((pySplitDoubleNl refined_result).map pyStrip).filter (fun p => p ≠ "")

/-- The deterministic tail of `GeminiTextSplitter.split_and_refine_text`
(lines 144–171).  The two Gemini chat calls are the external oracle;
`refined_result` is the oracle's final reply.  Every `sys.exit(1)` is
modelled as an `Except.error`. -/
def split_and_refine_text (text : String) (refined_result : String) :
    Except SplitError (List String) :=
  let split_texts := refinedPieces refined_result
  if split_texts = [] then .error .geminiSplitFailure
  else if !(validate_content_integrity text split_texts) then .error .contentMismatch
  else
    match checkPieces 0 split_texts with
    | some e => .error e
    | none => .ok split_texts

theorem checkLines_isSome (i : ℕ) :
    ∀ (lines : List String) (j : ℕ),
      (∃ line ∈ lines, 25 < line.length) → (checkLines i j lines).isSome := by
  intro lines
  induction lines with
  | nil => intro j h; obtain ⟨line, hmem, _⟩ := h; cases hmem
  | cons l rest ih =>
    intro j h
    unfold checkLines
    split_ifs with hl
    · rfl
    · obtain ⟨line, hmem, hlen⟩ := h
      rcases List.mem_cons.mp hmem with hmem | hmem
      · subst hmem; exact absurd hlen hl
      · exact ih (j + 1) ⟨line, hmem, hlen⟩

theorem checkPieces_isSome :
    ∀ (pieces : List String) (i : ℕ),
      (∃ p ∈ pieces, 3 < (pySplitNl p).length ∨ ∃ line ∈ pySplitNl p, 25 < line.length) →
      (checkPieces i pieces).isSome := by
  intro pieces
  induction pieces with
  | nil => intro i h; obtain ⟨p, hmem, _⟩ := h; cases hmem
  | cons part rest ih =>
    intro i h
    unfold checkPieces
    split_ifs with hcnt
    · rfl
    · obtain ⟨p, hmem, hbad⟩ := h
      rcases List.mem_cons.mp hmem with hmem | hmem
      · subst hmem
        rcases hbad with hbad | hbad
        · exact absurd hbad hcnt
        · have := checkLines_isSome i (pySplitNl p) 0 hbad
          cases hck : checkLines i 0 (pySplitNl p) with
          | none => rw [hck] at this; cases this
          | some e => rfl
      · cases hck : checkLines i 0 (pySplitNl part) with
        | none => exact ih (i + 1) ⟨p, hmem, hbad⟩
        | some e => rfl

/-- **C5** (amended).  When a piece of the oracle's reply exceeds the
line-count limit (more than 3 lines) or the per-line character limit (a
line over 25 characters) — and the earlier checks pass so that the
length validation is reached — the run is **fatal**: the code calls
`sys.exit(1)` and no repair is attempted.  (The original claim — that a
Rule-Based Segmenter silently repairs the violation and the run
continues — is false: no such fallback exists in the code; see the
counterexample.) -/
theorem C5_constraint_violation_fatal (text refined_result : String)
    (hne : refinedPieces refined_result ≠ [])
    (hint : validate_content_integrity text (refinedPieces refined_result) = true)
    (hbad : ∃ p ∈ refinedPieces refined_result,
      3 < (pySplitNl p).length ∨ ∃ line ∈ pySplitNl p, 25 < line.length) :
    ∃ e, split_and_refine_text text refined_result = Except.error e := by
  unfold split_and_refine_text
  rw [if_neg hne]
  rw [hint]
  simp only [Bool.not_true, Bool.false_eq_true, if_false]
  have := checkPieces_isSome (refinedPieces refined_result) 0 hbad
  cases hck : checkPieces 0 (refinedPieces refined_result) with
  | none => rw [hck] at this; cases this
  | some e => exact ⟨e, rfl⟩

/-- Witness for C5: the oracle returns a single piece consisting of one
26-character line; the integrity check passes and the run aborts. -/
theorem C5_constraint_violation_fatal_witness :
    ∃ e, split_and_refine_text "aaaaaaaaaaaaaaaaaaaaaaaaaa" "aaaaaaaaaaaaaaaaaaaaaaaaaa" =
      Except.error e :=
  C5_constraint_violation_fatal "aaaaaaaaaaaaaaaaaaaaaaaaaa" "aaaaaaaaaaaaaaaaaaaaaaaaaa"
    (by decide) (by decide) (by decide)

/-- Counterexample to C5 as stated: on a 26-character single-line piece
the run does **not** continue with repaired pieces — it exits with a
constraint-violation error. -/
theorem C5_counterexample :
    split_and_refine_text "aaaaaaaaaaaaaaaaaaaaaaaaaa" "aaaaaaaaaaaaaaaaaaaaaaaaaa" =
      Except.error (SplitError.lineTooLong 0 0) := rfl

/-! ## Step 4: `SubtitleGrouper.validate_groups`
(`step4_generate_groups.py`, lines 142–209)

Python `set`s of indices are modelled as membership lists (only
membership, intersection-nonemptiness and complement are ever used),
and Python's stable `list.sort(key=...)` as a stable insertion sort —
any stable sort produces the same list. -/

/-- A group record as built by `parse_grouping_result`
(lines 121–131) and by the filler-group synthesis (lines 187–197). -/
structure PGroup where
  group_id : ℤ
  start_time : ℚ
  end_time : ℚ
  duration : ℚ
  subtitle_count : ℕ
  subtitles : List Cue
  combined_text : String
  topic : String
  subtitle_indices : List ℤ
deriving DecidableEq, Repr

/-- `text.replace('\n', ' ')`. -/
def replaceNlSpace (s : String) : String :=
  ⟨s.data.map (fun c => if c = '\n' then ' ' else c)⟩

/-- The accept loop of `validate_groups` (lines 149–165): skip a group
whose index set intersects the already-covered indices, skip a group
shorter than 3 s, otherwise accept it and extend the covered set.
Returns the accepted groups in order together with the final covered
set. -/
def acceptLoop (covered : List ℤ) : List PGroup → List PGroup × List ℤ
  | [] => ([], covered)
  | g :: rest =>
    if g.subtitle_indices.any (fun i => covered.contains i) then
      acceptLoop covered rest
    else if g.duration < 3 then
      acceptLoop covered rest
    else
      ((g :: (acceptLoop (covered ++ g.subtitle_indices) rest).1),
        (acceptLoop (covered ++ g.subtitle_indices) rest).2)

/-- Partition a sorted list of indices into maximal runs of consecutive
integers (the `missing_sorted` grouping loop, lines 174–200). -/
def consecRuns : List ℤ → List (List ℤ)
  | [] => []
  | [x] => [[x]]
  | x :: y :: rest =>
    match consecRuns (y :: rest) with
    | r :: rs => if y = x + 1 then (x :: r) :: rs else [x] :: r :: rs
    | [] => [[x]]

/-- One synthesized filler group (lines 185–197); `gid` is
`len(validated_groups) + 1` at creation time (overwritten by the final
renumbering).  The run's indices are in range by construction, so the
`getD` default is never used. -/
def mkExtra (subtitles : List Cue) (gid : ℤ) (run : List ℤ) : PGroup :=
  let missing_subtitles := run.map (fun i => subtitles.getD i.toNat ⟨0, "", 0, 0, ""⟩)
  { group_id := gid
    start_time := (missing_subtitles.headD ⟨0, "", 0, 0, ""⟩).start
    end_time := (missing_subtitles.getLastD ⟨0, "", 0, 0, ""⟩).«end»
    duration := (missing_subtitles.getLastD ⟨0, "", 0, 0, ""⟩).«end» -
      (missing_subtitles.headD ⟨0, "", 0, 0, ""⟩).start
    subtitle_count := missing_subtitles.length
    subtitles := missing_subtitles
    combined_text :=
      String.intercalate " " (missing_subtitles.map (fun s => replaceNlSpace s.text))
    topic := "추가 내용"
    subtitle_indices := run }

/-- Synthesize filler groups for all runs, with increasing ids. -/
def mkExtras (subtitles : List Cue) : ℤ → List (List ℤ) → List PGroup
  | _, [] => []
  | gid, run :: rest => mkExtra subtitles gid run :: mkExtras subtitles (gid + 1) rest

/-- Stable ascending insertion by `start_time`. -/
def insertByStart (g : PGroup) : List PGroup → List PGroup
  | [] => [g]
  | h :: t =>
    if g.start_time ≤ h.start_time then g :: h :: t
    else h :: insertByStart g t

/-- `validated_groups.sort(key=lambda x: x["start_time"])` (line 203):
Python's sort is stable, and every stable ascending sort computes the
same list, here realised as insertion sort. -/
def sortByStart : List PGroup → List PGroup
  | [] => []
  | g :: rest => insertByStart g (sortByStart rest)

/-- Dense renumbering of `group_id` from 1 (lines 206–207). -/
def renumber : ℤ → List PGroup → List PGroup
  | _, [] => []
  | k, g :: rest => { g with group_id := k } :: renumber (k + 1) rest

/-- `SubtitleGrouper.validate_groups(groups, subtitles)`
(lines 142–209). -/
def validate_groups (groups : List PGroup) (subtitles : List Cue) : List PGroup :=
  if groups = [] then []
  else
    let validated := (acceptLoop [] groups).1
    let covered := (acceptLoop [] groups).2
    let missing_sorted : List ℤ :=
      ((List.range subtitles.length).map (fun n : ℕ => (n : ℤ))).filter
        (fun i => !covered.contains i)
    let extras := mkExtras subtitles ((validated.length : ℤ) + 1) (consecRuns missing_sorted)
    renumber 1 (sortByStart (validated ++ extras))

/-- The union of the index sets of a list of groups. -/
def indicesUnion (gs : List PGroup) : Finset ℤ :=
  gs.foldr (fun g s => g.subtitle_indices.toFinset ∪ s) ∅

/-- Pairwise disjointness of the index sets of a list of groups. -/
def IndicesDisjoint (gs : List PGroup) : Prop :=
  List.Pairwise
    (fun g h => Disjoint g.subtitle_indices.toFinset h.subtitle_indices.toFinset) gs

theorem indicesUnion_eq (gs : List PGroup) :
    indicesUnion gs = ((gs.map (fun g => g.subtitle_indices)).flatten).toFinset := by
  induction gs with
  | nil => rfl
  | cons g rest ih =>
    show g.subtitle_indices.toFinset ∪ indicesUnion rest = _
    rw [ih, List.map_cons, List.flatten_cons, List.toFinset_append]

theorem indicesUnion_append (a b : List PGroup) :
    indicesUnion (a ++ b) = indicesUnion a ∪ indicesUnion b := by
  rw [indicesUnion_eq, indicesUnion_eq, indicesUnion_eq, List.map_append,
    List.flatten_append, List.toFinset_append]

theorem indicesUnion_congr {gs gs' : List PGroup}
    (h : gs.map (fun g => g.subtitle_indices) = gs'.map (fun g => g.subtitle_indices)) :
    indicesUnion gs = indicesUnion gs' := by
  rw [indicesUnion_eq, indicesUnion_eq, h]

theorem indicesUnion_perm {gs gs' : List PGroup} (p : gs.Perm gs') :
    indicesUnion gs = indicesUnion gs' := by
  rw [indicesUnion_eq, indicesUnion_eq]
  exact List.toFinset_eq_of_perm _ _ (p.map _).flatten

theorem subset_indicesUnion {g : PGroup} {gs : List PGroup} (hg : g ∈ gs) :
    g.subtitle_indices.toFinset ⊆ indicesUnion gs := by
  rw [indicesUnion_eq]
  intro i hi
  rw [List.mem_toFinset] at hi ⊢
  rw [List.mem_flatten]
  exact ⟨g.subtitle_indices, List.mem_map.mpr ⟨g, hg, rfl⟩, hi⟩

theorem mem_indicesUnion {i : ℤ} {gs : List PGroup} :
    i ∈ indicesUnion gs ↔ ∃ g ∈ gs, i ∈ g.subtitle_indices := by
  rw [indicesUnion_eq]
  rw [List.mem_toFinset, List.mem_flatten]
  constructor
  · rintro ⟨l, hl, hi⟩
    obtain ⟨g, hg, rfl⟩ := List.mem_map.mp hl
    exact ⟨g, hg, hi⟩
  · rintro ⟨g, hg, hi⟩
    exact ⟨g.subtitle_indices, List.mem_map.mpr ⟨g, hg, rfl⟩, hi⟩

/-- Invariant of the accept loop: the final covered set is the initial
one plus the accepted groups' indices; accepted groups come from the
input, are disjoint from the initial covered set, and are pairwise
disjoint. -/
theorem acceptLoop_spec :
    ∀ (gs : List PGroup) (covered : List ℤ),
      (acceptLoop covered gs).2.toFinset =
        covered.toFinset ∪ indicesUnion (acceptLoop covered gs).1 ∧
      (∀ g ∈ (acceptLoop covered gs).1, g ∈ gs) ∧
      (∀ g ∈ (acceptLoop covered gs).1,
        Disjoint g.subtitle_indices.toFinset covered.toFinset) ∧
      IndicesDisjoint (acceptLoop covered gs).1 := by
  intro gs
  induction gs with
  | nil =>
    intro covered
    exact ⟨by simp [acceptLoop, indicesUnion], by simp [acceptLoop],
      by simp [acceptLoop], by simp [acceptLoop, IndicesDisjoint]⟩
  | cons g rest ih =>
    intro covered
    by_cases hdup : g.subtitle_indices.any (fun i => covered.contains i)
    · have hred : acceptLoop covered (g :: rest) = acceptLoop covered rest := by
        simp only [acceptLoop]
        rw [if_pos hdup]
      rw [hred]
      obtain ⟨h1, h2, h3, h4⟩ := ih covered
      exact ⟨h1, fun x hx => List.mem_cons_of_mem _ (h2 x hx), h3, h4⟩
    · by_cases hdur : g.duration < 3
      · have hred : acceptLoop covered (g :: rest) = acceptLoop covered rest := by
          simp only [acceptLoop]
          rw [if_neg hdup, if_pos hdur]
        rw [hred]
        obtain ⟨h1, h2, h3, h4⟩ := ih covered
        exact ⟨h1, fun x hx => List.mem_cons_of_mem _ (h2 x hx), h3, h4⟩
      · have hred : acceptLoop covered (g :: rest) =
            ((g :: (acceptLoop (covered ++ g.subtitle_indices) rest).1),
              (acceptLoop (covered ++ g.subtitle_indices) rest).2) := by
          simp only [acceptLoop]
          rw [if_neg hdup, if_neg hdur]
        rw [hred]
        obtain ⟨h1, h2, h3, h4⟩ := ih (covered ++ g.subtitle_indices)
        have hgdisj : Disjoint g.subtitle_indices.toFinset covered.toFinset := by
          rw [Finset.disjoint_left]
          intro i hi hic
          rw [List.mem_toFinset] at hi hic
          have : g.subtitle_indices.any (fun i => covered.contains i) = true :=
            List.any_eq_true.mpr ⟨i, hi, by simpa using hic⟩
          exact hdup this
        refine ⟨?_, ?_, ?_, ?_⟩
        · show (acceptLoop (covered ++ g.subtitle_indices) rest).2.toFinset =
            covered.toFinset ∪
              (g.subtitle_indices.toFinset ∪
                indicesUnion (acceptLoop (covered ++ g.subtitle_indices) rest).1)
          rw [h1, List.toFinset_append]
          ac_rfl
        · intro x hx
          rcases List.mem_cons.mp hx with hx | hx
          · subst hx; exact List.mem_cons_self _ _
          · exact List.mem_cons_of_mem _ (h2 x hx)
        · intro x hx
          rcases List.mem_cons.mp hx with hx | hx
          · subst hx; exact hgdisj
          · have := h3 x hx
            rw [List.toFinset_append, Finset.disjoint_union_right] at this
            exact this.1
        · rw [IndicesDisjoint, List.pairwise_cons]
          refine ⟨?_, h4⟩
          intro h hh
          have := h3 h hh
          rw [List.toFinset_append, Finset.disjoint_union_right] at this
          exact this.2.symm

theorem consecRuns_flatten : ∀ l : List ℤ, (consecRuns l).flatten = l := by
  intro l
  induction l with
  | nil => rfl
  | cons x tail ih =>
    cases tail with
    | nil => rfl
    | cons y rest =>
      cases hm : consecRuns (y :: rest) with
      | nil => rw [hm] at ih; cases ih
      | cons r rs =>
        rw [hm] at ih
        show (match consecRuns (y :: rest) with
          | r :: rs => if y = x + 1 then (x :: r) :: rs else [x] :: r :: rs
          | [] => [[x]]).flatten = x :: y :: rest
        rw [hm]
        dsimp only
        by_cases hy : y = x + 1
        · rw [if_pos hy]
          simp only [List.flatten_cons] at ih ⊢
          rw [List.cons_append, ih]
        · rw [if_neg hy]
          simp only [List.flatten_cons] at ih ⊢
          rw [List.singleton_append, ih]

theorem mkExtras_indices (subtitles : List Cue) :
    ∀ (runs : List (List ℤ)) (gid : ℤ),
      (mkExtras subtitles gid runs).map (fun g => g.subtitle_indices) = runs := by
  intro runs
  induction runs with
  | nil => intro gid; rfl
  | cons run rest ih =>
    intro gid
    show (mkExtra subtitles gid run).subtitle_indices ::
      (mkExtras subtitles (gid + 1) rest).map (fun g => g.subtitle_indices) = run :: rest
    rw [ih (gid + 1)]
    rfl

theorem insertByStart_perm (g : PGroup) :
    ∀ l : List PGroup, (insertByStart g l).Perm (g :: l) := by
  intro l
  induction l with
  | nil => exact List.Perm.refl _
  | cons h t ih =>
    unfold insertByStart
    split_ifs
    · exact List.Perm.refl _
    · exact (List.Perm.cons h ih).trans (List.Perm.swap g h t)

theorem sortByStart_perm : ∀ l : List PGroup, (sortByStart l).Perm l := by
  intro l
  induction l with
  | nil => exact List.Perm.refl _
  | cons g rest ih =>
    exact (insertByStart_perm g (sortByStart rest)).trans (List.Perm.cons g ih)

theorem renumber_indices :
    ∀ (gs : List PGroup) (k : ℤ),
      (renumber k gs).map (fun g => g.subtitle_indices) =
        gs.map (fun g => g.subtitle_indices) := by
  intro gs
  induction gs with
  | nil => intro k; rfl
  | cons g rest ih =>
    intro k
    show g.subtitle_indices :: (renumber (k + 1) rest).map (fun g => g.subtitle_indices) = _
    rw [ih (k + 1)]
    rfl

theorem pairwise_indices_of_map_eq :
    ∀ {gs gs' : List PGroup},
      gs.map (fun g => g.subtitle_indices) = gs'.map (fun g => g.subtitle_indices) →
      IndicesDisjoint gs → IndicesDisjoint gs' := by
  intro gs
  induction gs with
  | nil =>
    intro gs' h _
    cases gs' with
    | nil => exact List.Pairwise.nil
    | cons g t => simp at h
  | cons g rest ih =>
    intro gs' h hp
    cases gs' with
    | nil => simp at h
    | cons g' rest' =>
      simp only [List.map_cons, List.cons.injEq] at h
      unfold IndicesDisjoint at hp ⊢
      rw [List.pairwise_cons] at hp ⊢
      refine ⟨?_, ih h.2 hp.2⟩
      intro y hy
      obtain ⟨x, hx, hxy⟩ : ∃ x ∈ rest, x.subtitle_indices = y.subtitle_indices := by
        have hmem : y.subtitle_indices ∈ rest'.map (fun g => g.subtitle_indices) :=
          List.mem_map.mpr ⟨y, hy, rfl⟩
        rw [← h.2] at hmem
        obtain ⟨x, hx, hxe⟩ := List.mem_map.mp hmem
        exact ⟨x, hx, hxe⟩
      rw [← h.1, ← hxy]
      exact hp.1 x hx

theorem indicesDisjoint_perm {gs gs' : List PGroup} (p : gs.Perm gs')
    (hp : IndicesDisjoint gs) : IndicesDisjoint gs' :=
  (p.pairwise_iff (fun hab => Disjoint.symm hab)).mp hp

theorem mkExtras_indicesDisjoint (subtitles : List Cue) :
    ∀ (runs : List (List ℤ)) (gid : ℤ),
      List.Pairwise List.Disjoint runs →
      IndicesDisjoint (mkExtras subtitles gid runs) := by
  intro runs
  induction runs with
  | nil => intro gid _; exact List.Pairwise.nil
  | cons run rest ih =>
    intro gid hp
    rw [List.pairwise_cons] at hp
    unfold IndicesDisjoint
    show List.Pairwise _ (mkExtra subtitles gid run :: mkExtras subtitles (gid + 1) rest)
    rw [List.pairwise_cons]
    constructor
    · intro e he
      obtain ⟨run', hrun', hidx⟩ :
          ∃ r ∈ rest, e.subtitle_indices = r := by
        have hmem : e.subtitle_indices ∈
            (mkExtras subtitles (gid + 1) rest).map (fun g => g.subtitle_indices) :=
          List.mem_map.mpr ⟨e, he, rfl⟩
        rw [mkExtras_indices subtitles rest (gid + 1)] at hmem
        exact ⟨e.subtitle_indices, hmem, rfl⟩
      show Disjoint (mkExtra subtitles gid run).subtitle_indices.toFinset _
      have hidx0 : (mkExtra subtitles gid run).subtitle_indices = run := rfl
      rw [hidx0, hidx]
      exact List.disjoint_toFinset_iff_disjoint.mpr (hp.1 run' hrun')
    · exact ih (gid + 1) hp.2

/-- **C2** (amended).  For every **non-empty** sequence of proposed
groups **whose subtitle indices all lie in `[0, total_cue_count)`**, the
reconciler's output covers exactly the index range `[0, total_cue_count)`
and no index appears in more than one output group.  (The original
unconditional claim fails in two ways: an empty proposed-group list is
returned as-is with nothing covered, and out-of-range proposed indices
survive into the output — see the counterexample.) -/
theorem C2_reconciler_partition (groups : List PGroup) (subtitles : List Cue)
    (hne : groups ≠ [])
    (hrange : ∀ g ∈ groups, ∀ i ∈ g.subtitle_indices,
      0 ≤ i ∧ i < (subtitles.length : ℤ)) :
    indicesUnion (validate_groups groups subtitles) =
      (Finset.range subtitles.length).image (fun n : ℕ => (n : ℤ)) ∧
    IndicesDisjoint (validate_groups groups subtitles) := by
  obtain ⟨hcov, hsub, _, hpair⟩ := acceptLoop_spec groups []
  set validated := (acceptLoop ([] : List ℤ) groups).1 with hvdef
  set covered := (acceptLoop ([] : List ℤ) groups).2 with hcdef
  have hcov' : covered.toFinset = indicesUnion validated := by
    rw [hcov]
    simp
  set rangeList : List ℤ := (List.range subtitles.length).map (fun n : ℕ => (n : ℤ))
    with hrldef
  set missing : List ℤ := rangeList.filter (fun i => !covered.contains i) with hmdef
  set extras := mkExtras subtitles ((validated.length : ℤ) + 1) (consecRuns missing)
    with hedef
  set rangeSet : Finset ℤ := (Finset.range subtitles.length).image (fun n : ℕ => (n : ℤ))
    with hrsdef
  have hvg : validate_groups groups subtitles =
      renumber 1 (sortByStart (validated ++ extras)) := by
    unfold validate_groups
    rw [if_neg hne]
  -- basic set identities
  have hrangeList : rangeList.toFinset = rangeSet := by
    rw [hrldef, hrsdef]
    ext i
    simp [List.mem_map, List.mem_range, Finset.mem_image, Finset.mem_range]
  have hmissing : missing.toFinset = rangeSet \ covered.toFinset := by
    have hrl : ∀ i : ℤ, i ∈ rangeList ↔ i ∈ rangeSet := by
      intro i
      rw [← hrangeList, List.mem_toFinset]
    rw [hmdef]
    ext i
    simp only [List.mem_toFinset, List.mem_filter, Finset.mem_sdiff, Bool.not_eq_eq_eq_not,
      Bool.not_true, hrl]
    constructor
    · rintro ⟨h1, h2⟩
      refine ⟨h1, fun hmem => ?_⟩
      have hct : covered.contains i = true := by simpa using hmem
      rw [hct] at h2
      cases h2
    · rintro ⟨h1, h2⟩
      refine ⟨h1, ?_⟩
      by_contra hc
      rw [Bool.not_eq_false] at hc
      exact h2 (by simpa using hc)
  have hcovsub : covered.toFinset ⊆ rangeSet := by
    rw [hcov']
    intro i hi
    obtain ⟨g, hg, hgi⟩ := mem_indicesUnion.mp hi
    obtain ⟨h0, h1⟩ := hrange g (hsub g hg) i hgi
    rw [hrsdef]
    rw [Finset.mem_image]
    refine ⟨i.toNat, ?_, ?_⟩
    · rw [Finset.mem_range]
      omega
    · omega
  have hextrasIdx : extras.map (fun g => g.subtitle_indices) = consecRuns missing := by
    rw [hedef]
    exact mkExtras_indices subtitles (consecRuns missing) _
  have hextrasUnion : indicesUnion extras = missing.toFinset := by
    rw [indicesUnion_eq, hextrasIdx, consecRuns_flatten]
  have hmissingNodup : missing.Nodup := by
    rw [hmdef]
    refine List.Nodup.filter _ ?_
    refine List.Nodup.map ?_ (List.nodup_range _)
    intro a b hab
    have hab' : (a : ℤ) = (b : ℤ) := hab
    exact_mod_cast hab'
  have hrunsDisjoint : List.Pairwise List.Disjoint (consecRuns missing) := by
    have : (consecRuns missing).flatten.Nodup := by
      rw [consecRuns_flatten]
      exact hmissingNodup
    exact (List.nodup_flatten.mp this).2
  -- the combined list before sorting and renumbering
  have hunionVE : indicesUnion (validated ++ extras) = rangeSet := by
    rw [indicesUnion_append, hextrasUnion, hmissing, ← hcov']
    exact Finset.union_sdiff_of_subset hcovsub
  have hdisjVE : IndicesDisjoint (validated ++ extras) := by
    unfold IndicesDisjoint
    rw [List.pairwise_append]
    refine ⟨hpair, ?_, ?_⟩
    · exact mkExtras_indicesDisjoint subtitles (consecRuns missing) _ hrunsDisjoint
    · intro g hg e he
      rw [Finset.disjoint_left]
      intro i hig hie
      have higU : i ∈ indicesUnion validated :=
        subset_indicesUnion hg hig
      have hieU : i ∈ indicesUnion extras :=
        subset_indicesUnion he hie
      rw [hextrasUnion, hmissing, Finset.mem_sdiff, hcov'] at hieU
      exact hieU.2 higU
  -- transfer across the stable sort and the renumbering
  have hperm : (validated ++ extras).Perm (sortByStart (validated ++ extras)) :=
    (sortByStart_perm (validated ++ extras)).symm
  have hu1 : indicesUnion (sortByStart (validated ++ extras)) = rangeSet := by
    rw [← indicesUnion_perm hperm]
    exact hunionVE
  have hu2 : indicesUnion (renumber 1 (sortByStart (validated ++ extras))) = rangeSet := by
    rw [indicesUnion_congr (renumber_indices (sortByStart (validated ++ extras)) 1)]
    exact hu1
  have hd1 : IndicesDisjoint (sortByStart (validated ++ extras)) :=
    indicesDisjoint_perm hperm hdisjVE
  have hd2 : IndicesDisjoint (renumber 1 (sortByStart (validated ++ extras))) :=
    pairwise_indices_of_map_eq (renumber_indices (sortByStart (validated ++ extras)) 1).symm hd1
  rw [hvg]
  exact ⟨hu2, hd2⟩

/-- Witness for C2: one proposed group claiming index 0 (duration 5 s)
over a single cue. -/
theorem C2_reconciler_partition_witness :
    indicesUnion (validate_groups [⟨1, 0, 5, 5, 1, [], "", "t", [0]⟩]
        [⟨1, "a", 0, 1, "estimated"⟩]) =
      (Finset.range ([(⟨1, "a", 0, 1, "estimated"⟩ : Cue)] : List Cue).length).image
        (fun n : ℕ => (n : ℤ)) ∧
    IndicesDisjoint (validate_groups [⟨1, 0, 5, 5, 1, [], "", "t", [0]⟩]
        [⟨1, "a", 0, 1, "estimated"⟩]) :=
  C2_reconciler_partition [⟨1, 0, 5, 5, 1, [], "", "t", [0]⟩]
    [⟨1, "a", 0, 1, "estimated"⟩] (by simp) (by decide)

/-- Counterexample to C2 as stated, in both directions the amendment
needs: (1) with an **empty** proposed-group list over one cue the output
is empty, so the union misses index 0; (2) with one accepted group
carrying the out-of-range index 1 over a single cue, the output's union
is `{0, 1} ≠ {0}`. -/
theorem C2_counterexample :
    (indicesUnion (validate_groups [] [⟨1, "a", 0, 1, "estimated"⟩]) ≠
      (Finset.range 1).image (fun n : ℕ => (n : ℤ))) ∧
    (indicesUnion (validate_groups [⟨1, 0, 5, 5, 2, [], "", "t", [0, 1]⟩]
        [⟨1, "a", 0, 1, "estimated"⟩]) ≠
      (Finset.range 1).image (fun n : ℕ => (n : ℤ))) := by
  constructor <;> decide

/-! ## Step 3 (continued): `generate_webvtt`, `format_time` and
`validate_webvtt_file` (`step3_generate_vtt.py`, lines 18–26, 56–77,
126–186) -/

/-- Decimal digits of a natural number, as produced by Python's
`str(n)`. -/
def natStr (n : ℕ) : List Char := Nat.toDigits 10 n

/-- Python `str` of an `int`. -/
def intStr (z : ℤ) : List Char :=
  if z < 0 then '-' :: natStr z.natAbs else natStr z.toNat

/-- Zero-pad on the left to width `w`. -/
def padZeros (w : ℕ) (l : List Char) : List Char :=
  List.replicate (w - l.length) '0' ++ l

/-- Python `f"{z:02d}"` (for a negative value the sign counts towards
the width, as in Python). -/
def intPad2 (z : ℤ) : List Char :=
  if z < 0 then '-' :: padZeros 1 (natStr z.natAbs) else padZeros 2 (natStr z.toNat)

/-- Python `x % m` for floats with a positive modulus: the result lies
in `[0, m)` regardless of the sign of `x`. -/
def pyMod (x m : ℚ) : ℚ := x - m * ⌊x / m⌋

/-- Python `f"{sec:06.3f}"` for the non-negative `sec = seconds % 60`
produced inside `format_time`: round to 3 decimals (half-even) and
render `SS.mmm`, zero-padded to total width 6. -/
def secFmt (sec : ℚ) : List Char :=
  padZeros 2 (natStr ((rndHalfEven (1000 * sec)).toNat / 1000)) ++
    '.' :: padZeros 3 (natStr ((rndHalfEven (1000 * sec)).toNat % 1000))

/-- `WebVTTGenerator.format_time(seconds)` (lines 18–26):
`hours = int(seconds // 3600)`, `minutes = int((seconds % 3600) // 60)`,
`sec = seconds % 60`, rendered `f"{hours:02d}:{minutes:02d}:{sec:06.3f}"`. -/
def format_time (seconds : ℚ) : List Char :=
  intPad2 ⌊seconds / 3600⌋ ++
    ':' :: intPad2 ⌊pyMod seconds 3600 / 60⌋ ++
    ':' :: secFmt (pyMod seconds 60)

/-- The `f"{start_time} --> {end_time}"` line (lines 67–69). -/
def timeLine (c : Cue) : List Char :=
  format_time c.start ++ (" --> ".data) ++ format_time c.«end»

/-- `WebVTTGenerator.generate_webvtt(subtitles)` (lines 56–77): build
`webvtt_content = ["WEBVTT", ""]`, then per cue append the index, the
time line, the cue text and a blank line; return `"\n".join(...)`. -/
def generate_webvtt (subtitles : List Cue) : List Char :=
  List.intercalate ['\n']
    (["WEBVTT".data, []] ++
      (subtitles.map (fun c => [intStr c.index, timeLine c, c.text.data, []])).flatten)

/-- The result record of `validate_webvtt_file`:
`{"total_subtitles", "issues", "is_valid"}`. -/
structure VttStats where
  total_subtitles : ℕ
  issues : List String
  is_valid : Bool
deriving DecidableEq, Repr

/-- Python `str.isdigit()`: non-empty and all digits (ASCII model). -/
def isDigitStr (l : List Char) : Bool := !l.isEmpty && l.all Char.isDigit

/-- `f"자막 {n}: 시간 형식 오류"`. -/
def timeFormatIssue (n : ℕ) : String := "자막 " ++ ⟨natStr n⟩ ++ ": 시간 형식 오류"

/-- `f"자막 {n}: 텍스트가 비어있음"`. -/
def emptyTextIssue (n : ℕ) : String := "자막 " ++ ⟨natStr n⟩ ++ ": 텍스트가 비어있음"

/-- `"파일이 'WEBVTT'로 시작하지 않습니다"`. -/
def headerIssue : String := "파일이 'WEBVTT'로 시작하지 않습니다"

/-- The numbered-block scan of `validate_webvtt_file` (lines 149–172).
The Python loop reads `lines[i]`, `lines[i+1]`, `lines[i+2]` and
advances `i` by 4 after a numbered block and by 1 otherwise; it is
modelled on the suffix `lines[i:]`, with the bound check `i + k <
len(lines)` becoming "the suffix has more than `k` elements". -/
def vttScan (count : ℕ) (issues : List String) (valid : Bool) :
    List (List Char) → ℕ × List String × Bool
  | [] => (count, issues, valid)
  | l :: rs =>
    if isDigitStr (pyStripChars l) then
      let s1 : List String × Bool :=
        match rs.head? with
        | some time_line =>
          if (" --> ".data) <:+: time_line then (issues, valid)
          else (issues ++ [timeFormatIssue (count + 1)], false)
        | none => (issues, valid)
      let s2 : List String × Bool :=
        match rs.tail.head? with
        | some text_line =>
          if pyStripChars text_line = [] then (s1.1 ++ [emptyTextIssue (count + 1)], false)
          else s1
        | none => s1
      match rs with
      | _ :: _ :: _ :: t => vttScan (count + 1) s2.1 s2.2 t
      | _ => (count + 1, s2.1, s2.2)
    else
      vttScan count issues valid rs

/-- `WebVTTGenerator.validate_webvtt_file` applied to the file content
(lines 126–186): `lines = content.strip().split('\n')`, header check on
`lines[0]`, then the numbered-block scan from `i = 2`. -/
def validate_webvtt_file (content : List Char) : VttStats :=
  let lines := splitNl (pyStripChars content)
  let headOk : Bool := pyStripChars (lines.headD []) == "WEBVTT".data
  let issues0 : List String := if headOk then [] else [headerIssue]
  let res := vttScan 0 issues0 headOk (lines.drop 2)
  { total_subtitles := res.1, issues := res.2.1, is_valid := res.2.2 }

/-! ### Character and digit-string lemmas -/

theorem isWS_of_isDigit {c : Char} (h : c.isDigit = true) : isWS c = false := by
  have hne : ∀ x : Char, x.isDigit = false → ¬ (c = x) := by
    intro x hx hcx
    subst hcx
    rw [h] at hx
    cases hx
  unfold isWS
  rw [decide_eq_false (hne ' ' (by decide)), decide_eq_false (hne '\t' (by decide)),
    decide_eq_false (hne '\n' (by decide)), decide_eq_false (hne '\r' (by decide)),
    decide_eq_false (hne '\x0b' (by decide)), decide_eq_false (hne '\x0c' (by decide))]
  rfl

theorem digitChar_isDigit {n : ℕ} (h : n < 10) : (Nat.digitChar n).isDigit = true := by
  interval_cases n <;> decide

theorem toDigitsCore_digits :
    ∀ (f n : ℕ) (acc : List Char), (∀ c ∈ acc, c.isDigit = true) →
      ∀ c ∈ Nat.toDigitsCore 10 f n acc, c.isDigit = true := by
  intro f
  induction f with
  | zero => intro n acc hacc c hc; exact hacc c hc
  | succ f ih =>
    intro n acc hacc c hc
    have hstep : ∀ x ∈ Nat.digitChar (n % 10) :: acc, x.isDigit = true := by
      intro x hx
      rcases List.mem_cons.mp hx with rfl | hx
      · exact digitChar_isDigit (Nat.mod_lt _ (by norm_num))
      · exact hacc x hx
    simp only [Nat.toDigitsCore] at hc
    split_ifs at hc with hn
    · exact hstep c hc
    · exact ih _ _ hstep c hc

theorem toDigitsCore_ne_nil :
    ∀ (f n : ℕ) (acc : List Char), acc ≠ [] → Nat.toDigitsCore 10 f n acc ≠ [] := by
  intro f
  induction f with
  | zero => intro n acc hacc; exact hacc
  | succ f ih =>
    intro n acc hacc
    simp only [Nat.toDigitsCore]
    split_ifs with hn
    · exact List.cons_ne_nil _ _
    · exact ih _ _ (List.cons_ne_nil _ _)

theorem natStr_all_digits (n : ℕ) : ∀ c ∈ natStr n, c.isDigit = true := by
  intro c hc
  exact toDigitsCore_digits (n + 1) n [] (by intro x hx; cases hx) c hc

theorem natStr_ne_nil (n : ℕ) : natStr n ≠ [] := by
  unfold natStr Nat.toDigits
  simp only [Nat.toDigitsCore]
  split_ifs with hn
  · exact List.cons_ne_nil _ _
  · exact toDigitsCore_ne_nil _ _ _ (List.cons_ne_nil _ _)

theorem isDigitStr_natStr (n : ℕ) : isDigitStr (natStr n) = true := by
  unfold isDigitStr
  rw [Bool.and_eq_true, List.all_eq_true]
  refine ⟨?_, ?_⟩
  · cases hm : natStr n with
    | nil => exact absurd hm (natStr_ne_nil n)
    | cons a t => rfl
  · intro c hc
    exact natStr_all_digits n c hc

theorem pyStripChars_natStr (n : ℕ) : pyStripChars (natStr n) = natStr n :=
  pyStripChars_eq_self (fun c hc => isWS_of_isDigit (natStr_all_digits n c hc))

theorem intStr_pos {z : ℤ} (h : 0 < z) : intStr z = natStr z.toNat := by
  unfold intStr
  rw [if_neg (by omega)]

theorem noNl_natStr (n : ℕ) : '\n' ∉ natStr n := by
  intro h
  have := natStr_all_digits n '\n' h
  exact absurd this (by decide)

theorem noNl_padZeros {w : ℕ} {l : List Char} (h : '\n' ∉ l) : '\n' ∉ padZeros w l := by
  unfold padZeros
  intro hmem
  rcases List.mem_append.mp hmem with hm | hm
  · have := List.eq_of_mem_replicate hm
    exact absurd this (by decide)
  · exact h hm

theorem noNl_intPad2 (z : ℤ) : '\n' ∉ intPad2 z := by
  unfold intPad2
  split_ifs
  · intro hmem
    rcases List.mem_cons.mp hmem with hm | hm
    · exact absurd hm (by decide)
    · exact noNl_padZeros (noNl_natStr _) hm
  · exact noNl_padZeros (noNl_natStr _)

theorem noNl_secFmt (sec : ℚ) : '\n' ∉ secFmt sec := by
  unfold secFmt
  intro hmem
  simp only [List.mem_append, List.mem_cons] at hmem
  have h1 : '\n' ∉ padZeros 2 (natStr ((rndHalfEven (1000 * sec)).toNat / 1000)) :=
    noNl_padZeros (noNl_natStr _)
  have h2 : '\n' ∉ padZeros 3 (natStr ((rndHalfEven (1000 * sec)).toNat % 1000)) :=
    noNl_padZeros (noNl_natStr _)
  have h3 : ¬ ('\n' = '.') := by decide
  tauto

theorem noNl_format_time (x : ℚ) : '\n' ∉ format_time x := by
  unfold format_time
  intro hmem
  simp only [List.mem_append, List.mem_cons] at hmem
  have h1 := noNl_intPad2 ⌊x / 3600⌋
  have h2 := noNl_intPad2 ⌊pyMod x 3600 / 60⌋
  have h3 := noNl_secFmt (pyMod x 60)
  have h4 : ¬ ('\n' = ':') := by decide
  tauto

theorem noNl_timeLine (c : Cue) : '\n' ∉ timeLine c := by
  unfold timeLine
  intro hmem
  simp only [List.mem_append, List.mem_cons] at hmem
  have h1 := noNl_format_time c.start
  have h2 := noNl_format_time c.«end»
  have h3 : '\n' ∉ (" --> ".data) := by decide
  tauto

theorem noNl_intStr (z : ℤ) : '\n' ∉ intStr z := by
  unfold intStr
  split_ifs
  · intro hmem
    rcases List.mem_cons.mp hmem with hm | hm
    · exact absurd hm (by decide)
    · exact noNl_natStr _ hm
  · exact noNl_natStr _

/-! ### `splitNl` / `joinNl` algebra -/

/-- `"\n".join(...)`. -/
def joinNl (els : List (List Char)) : List Char := List.intercalate ['\n'] els

theorem splitNl_ne_nil (l : List Char) : splitNl l ≠ [] := by
  cases l with
  | nil => simp [splitNl]
  | cons c rest =>
    unfold splitNl
    split_ifs
    · exact List.cons_ne_nil _ _
    · cases splitNl rest <;> exact List.cons_ne_nil _ _

theorem splitNl_singleton {l : List Char} (h : '\n' ∉ l) : splitNl l = [l] := by
  induction l with
  | nil => rfl
  | cons c rest ih =>
    have hc : ¬ (c = '\n') := fun hcc => h (hcc ▸ List.mem_cons_self _ _)
    have hrest : splitNl rest = [rest] := ih (fun hm => h (List.mem_cons_of_mem _ hm))
    unfold splitNl
    rw [if_neg hc, hrest]

theorem mem_splitNl_no_nl : ∀ (l : List Char), ∀ s ∈ splitNl l, '\n' ∉ s := by
  intro l
  induction l with
  | nil =>
    intro s hs
    simp only [splitNl, List.mem_singleton] at hs
    subst hs
    exact List.not_mem_nil _
  | cons c rest ih =>
    intro s hs
    by_cases hc : c = '\n'
    · subst hc
      simp only [splitNl, if_pos rfl] at hs
      rcases List.mem_cons.mp hs with rfl | hs
      · exact List.not_mem_nil _
      · exact ih s hs
    · obtain ⟨h0, t0, hrest⟩ : ∃ h0 t0, splitNl rest = h0 :: t0 := by
        cases hm : splitNl rest with
        | nil => exact absurd hm (splitNl_ne_nil rest)
        | cons h0 t0 => exact ⟨h0, t0, rfl⟩
      simp only [splitNl, if_neg hc, hrest] at hs
      rcases List.mem_cons.mp hs with rfl | hs
      · intro hmem
        rcases List.mem_cons.mp hmem with hm | hm
        · exact hc hm.symm
        · exact ih h0 (hrest ▸ List.mem_cons_self _ _) hm
      · exact ih s (hrest ▸ List.mem_cons_of_mem _ hs)

theorem splitNl_append (xs ys : List Char) :
    splitNl (xs ++ '\n' :: ys) = splitNl xs ++ splitNl ys := by
  induction xs with
  | nil => simp [splitNl]
  | cons c rest ih =>
    by_cases hc : c = '\n'
    · subst hc
      show splitNl ('\n' :: (rest ++ '\n' :: ys)) = splitNl ('\n' :: rest) ++ splitNl ys
      simp only [splitNl, if_pos rfl]
      rw [ih]
      rfl
    · obtain ⟨h0, t0, hrest⟩ : ∃ h0 t0, splitNl rest = h0 :: t0 := by
        cases hm : splitNl rest with
        | nil => exact absurd hm (splitNl_ne_nil rest)
        | cons h0 t0 => exact ⟨h0, t0, rfl⟩
      show splitNl (c :: (rest ++ '\n' :: ys)) = splitNl (c :: rest) ++ splitNl ys
      simp only [splitNl, if_neg hc, ih, hrest, List.cons_append]

theorem joinNl_singleton (a : List Char) : joinNl [a] = a := by
  unfold joinNl List.intercalate
  simp

theorem joinNl_cons_cons (a : List Char) (b : List (List Char)) (hb : b ≠ []) :
    joinNl (a :: b) = a ++ '\n' :: joinNl b := by
  obtain ⟨f, r, rfl⟩ : ∃ f r, b = f :: r := by
    cases b with
    | nil => exact absurd rfl hb
    | cons f r => exact ⟨f, r, rfl⟩
  unfold joinNl List.intercalate
  rw [List.intersperse_cons₂, List.flatten_cons, List.flatten_cons]
  rfl

theorem joinNl_append (A B : List (List Char)) (hA : A ≠ []) (hB : B ≠ []) :
    joinNl (A ++ B) = joinNl A ++ '\n' :: joinNl B := by
  induction A with
  | nil => exact absurd rfl hA
  | cons a A' ih =>
    cases A' with
    | nil =>
      rw [List.singleton_append, joinNl_cons_cons a B hB, joinNl_singleton]
    | cons a2 A'' =>
      rw [List.cons_append, joinNl_cons_cons a ((a2 :: A'') ++ B) (by simp),
        joinNl_cons_cons a (a2 :: A'') (by simp), ih (by simp)]
      simp [List.append_assoc]

theorem splitNl_joinNl (els : List (List Char)) (hne : els ≠ []) :
    splitNl (joinNl els) = (els.map splitNl).flatten := by
  induction els with
  | nil => exact absurd rfl hne
  | cons e rest ih =>
    cases rest with
    | nil =>
      show splitNl (joinNl [e]) = (List.map splitNl [e]).flatten
      have h1 : joinNl [e] = e := by
        unfold joinNl List.intercalate
        simp
      rw [h1]
      simp
    | cons f r =>
      rw [joinNl_cons_cons e (f :: r) (by simp), splitNl_append, ih (by simp)]
      simp

theorem joinNl_splitNl (l : List Char) : joinNl (splitNl l) = l := by
  induction l with
  | nil => rfl
  | cons c rest ih =>
    by_cases hc : c = '\n'
    · subst hc
      have hs : splitNl ('\n' :: rest) = [] :: splitNl rest := by
        simp [splitNl]
      rw [hs, joinNl_cons_cons [] (splitNl rest) (splitNl_ne_nil rest), ih]
      rfl
    · obtain ⟨h0, t0, hrest⟩ : ∃ h0 t0, splitNl rest = h0 :: t0 := by
        cases hm : splitNl rest with
        | nil => exact absurd hm (splitNl_ne_nil rest)
        | cons h0 t0 => exact ⟨h0, t0, rfl⟩
      show joinNl (splitNl (c :: rest)) = c :: rest
      simp only [splitNl, if_neg hc, hrest]
      cases t0 with
      | nil =>
        have h1 : joinNl [h0] = h0 := by
          unfold joinNl List.intercalate
          simp
        have h2 : joinNl [c :: h0] = c :: h0 := by
          unfold joinNl List.intercalate
          simp
        rw [h2]
        rw [hrest] at ih
        rw [h1] at ih
        rw [ih]
      | cons t1 ts =>
        rw [joinNl_cons_cons (c :: h0) (t1 :: ts) (by simp)]
        rw [hrest] at ih
        rw [joinNl_cons_cons h0 (t1 :: ts) (by simp)] at ih
        rw [List.cons_append, ih]

/-! ### `strip` algebra -/

theorem dropWhile_idem {p : Char → Bool} :
    ∀ l : List Char, (l.dropWhile p).dropWhile p = l.dropWhile p := by
  intro l
  induction l with
  | nil => rfl
  | cons a t ih =>
    rw [List.dropWhile_cons]
    by_cases ha : p a = true
    · rw [if_pos ha]; exact ih
    · rw [if_neg ha, List.dropWhile_cons, if_neg ha]

theorem mem_dropWhile_of_mem {p : Char → Bool} {x : Char} {l : List Char}
    (hx : x ∈ l) (hp : p x = false) : x ∈ l.dropWhile p := by
  induction l with
  | nil => cases hx
  | cons a t ih =>
    rw [List.dropWhile_cons]
    by_cases ha : p a = true
    · rw [if_pos ha]
      rcases List.mem_cons.mp hx with rfl | hx
      · rw [hp] at ha; cases ha
      · exact ih hx
    · rw [if_neg ha]
      exact hx

theorem pyStripR_idem (l : List Char) : pyStripR (pyStripR l) = pyStripR l := by
  unfold pyStripR
  rw [List.reverse_reverse, dropWhile_idem]

theorem pyStripChars_pyStripR (l : List Char) :
    pyStripChars (pyStripR l) = pyStripChars l := by
  unfold pyStripChars
  rw [pyStripR_idem]

theorem pyStripR_append_nl (l : List Char) : pyStripR (l ++ ['\n']) = pyStripR l := by
  unfold pyStripR
  have hrev : (l ++ ['\n']).reverse = '\n' :: l.reverse := by simp
  have hws : isWS '\n' = true := by decide
  rw [hrev, List.dropWhile_cons, hws]
  simp

theorem pyStripR_append {A B : List Char} (hB : pyStripR B ≠ []) :
    pyStripR (A ++ B) = A ++ pyStripR B := by
  unfold pyStripR at hB ⊢
  rw [List.reverse_append, List.dropWhile_append]
  have hne : ¬ ((List.dropWhile isWS B.reverse).isEmpty = true) := by
    intro h
    apply hB
    rw [List.isEmpty_iff] at h
    rw [h]
    rfl
  rw [if_neg hne, List.reverse_append, List.reverse_reverse]

theorem pyStripR_cons_nl {t : List Char} (h : pyStripR t ≠ []) :
    pyStripR ('\n' :: t) = '\n' :: pyStripR t := by
  have heq : ('\n' :: t) = ['\n'] ++ t := rfl
  rw [heq, pyStripR_append h]
  rfl

theorem mem_of_mem_pyStripR {c : Char} {l : List Char} (h : c ∈ pyStripR l) : c ∈ l := by
  unfold pyStripR at h
  rw [List.mem_reverse] at h
  exact List.mem_reverse.mp ((List.dropWhile_sublist isWS).subset h)

theorem mem_pyStripR_of {c : Char} {l : List Char}
    (hc : c ∈ l) (hws : isWS c = false) : c ∈ pyStripR l := by
  unfold pyStripR
  rw [List.mem_reverse]
  exact mem_dropWhile_of_mem (List.mem_reverse.mpr hc) hws

theorem pyStripR_ne_nil {l : List Char} (h : ∃ c ∈ l, isWS c = false) :
    pyStripR l ≠ [] := by
  obtain ⟨c, hc, hws⟩ := h
  unfold pyStripR
  intro hnil
  rw [List.reverse_eq_nil_iff, List.dropWhile_eq_nil_iff] at hnil
  have := hnil c (List.mem_reverse.mpr hc)
  rw [hws] at this
  cases this

theorem pyStripChars_ne_nil {l : List Char} (h : ∃ c ∈ l, isWS c = false) :
    pyStripChars l ≠ [] := by
  obtain ⟨c, hc, hws⟩ := h
  unfold pyStripChars pyStripL
  intro hnil
  rw [List.dropWhile_eq_nil_iff] at hnil
  have := hnil c (mem_pyStripR_of hc hws)
  rw [hws] at this
  cases this

theorem pyStripL_cons_of_not_ws {c : Char} {l : List Char} (h : isWS c = false) :
    pyStripL (c :: l) = c :: l := by
  unfold pyStripL
  rw [List.dropWhile_cons, h]
  simp

/-! ### The line structure of a generated WebVTT file -/

/-- The physical lines of a cue's text (`subtitle["text"]` may contain
internal newlines, which become separate lines of the serialized file). -/
def textLines (c : Cue) : List (List Char) := splitNl c.text.data

/-- The lines contributed by the final cue of the file: the trailing
blank line and the final newline are consumed by `content.strip()`,
which also right-strips the last text line. -/
def lastBlock (c : Cue) : List (List Char) :=
  intStr c.index :: timeLine c ::
    ((textLines c).dropLast ++ [pyStripR ((textLines c).getLastD [])])

/-- The lines scanned by `validate_webvtt_file` after the header and
first blank line, for a non-empty cue list. -/
def scanBlocks : List Cue → List (List Char)
  | [] => []
  | [c] => lastBlock c
  | c :: c2 :: rest =>
    (intStr c.index :: timeLine c :: textLines c ++ [[]]) ++ scanBlocks (c2 :: rest)

theorem mem_of_mem_splitNl :
    ∀ (l s : List Char), s ∈ splitNl l → ∀ c ∈ s, c ∈ l := by
  intro l
  induction l with
  | nil =>
    intro s hs c hc
    simp only [splitNl, List.mem_singleton] at hs
    subst hs
    cases hc
  | cons a rest ih =>
    intro s hs c hc
    by_cases ha : a = '\n'
    · subst ha
      simp only [splitNl, if_pos rfl] at hs
      rcases List.mem_cons.mp hs with rfl | hs
      · cases hc
      · exact List.mem_cons_of_mem _ (ih s hs c hc)
    · obtain ⟨h0, t0, hrest⟩ : ∃ h0 t0, splitNl rest = h0 :: t0 := by
        cases hm : splitNl rest with
        | nil => exact absurd hm (splitNl_ne_nil rest)
        | cons h0 t0 => exact ⟨h0, t0, rfl⟩
      simp only [splitNl, if_neg ha, hrest] at hs
      rcases List.mem_cons.mp hs with rfl | hs
      · rcases List.mem_cons.mp hc with rfl | hc
        · exact List.mem_cons_self _ _
        · exact List.mem_cons_of_mem _ (ih h0 (hrest ▸ List.mem_cons_self _ _) c hc)
      · exact List.mem_cons_of_mem _ (ih s (hrest ▸ List.mem_cons_of_mem _ hs) c hc)

theorem flatten_map_splitNl {X : List (List Char)} (h : ∀ x ∈ X, '\n' ∉ x) :
    (X.map splitNl).flatten = X := by
  induction X with
  | nil => rfl
  | cons x rest ih =>
    rw [List.map_cons, List.flatten_cons, splitNl_singleton (h x (List.mem_cons_self _ _)),
      ih (fun y hy => h y (List.mem_cons_of_mem _ hy))]
    rfl

/-- Right-stripping a text moves inside its final line (all lines being
non-blank). -/
theorem splitNl_pyStripR (T : List Char)
    (h : ∀ ln ∈ splitNl T, ∃ ch ∈ ln, isWS ch = false) :
    splitNl (pyStripR T) =
      (splitNl T).dropLast ++ [pyStripR ((splitNl T).getLastD [])] := by
  have hne : splitNl T ≠ [] := splitNl_ne_nil T
  have hlastD : (splitNl T).getLastD [] = (splitNl T).getLast hne := by
    rw [List.getLastD_eq_getLast?, List.getLast?_eq_getLast _ hne]
    rfl
  set ℓ := (splitNl T).getLast hne with hℓ
  have hdecomp : (splitNl T).dropLast ++ [ℓ] = splitNl T :=
    List.dropLast_append_getLast hne
  have hℓmem : ℓ ∈ splitNl T := List.getLast_mem hne
  have hℓnws : ∃ ch ∈ ℓ, isWS ch = false := h ℓ hℓmem
  have hsr : pyStripR ℓ ≠ [] := pyStripR_ne_nil hℓnws
  have hℓnoNl : '\n' ∉ ℓ := mem_splitNl_no_nl T ℓ hℓmem
  have hsrNoNl : '\n' ∉ pyStripR ℓ := fun hm => hℓnoNl (mem_of_mem_pyStripR hm)
  have hT : T = joinNl ((splitNl T).dropLast ++ [ℓ]) := by
    rw [hdecomp, joinNl_splitNl]
  rw [hlastD]
  cases hD : (splitNl T).dropLast with
  | nil =>
    have hls : splitNl T = [ℓ] := by
      rw [← hdecomp, hD]
      rfl
    have hTℓ : T = ℓ := by
      have hj := joinNl_splitNl T
      rw [hls, joinNl_singleton] at hj
      exact hj.symm
    calc splitNl (pyStripR T) = splitNl (pyStripR ℓ) := by rw [hTℓ]
      _ = [pyStripR ℓ] := splitNl_singleton hsrNoNl
      _ = [] ++ [pyStripR ℓ] := rfl
  | cons d ds =>
    have hTj : T = joinNl (d :: ds) ++ '\n' :: ℓ := by
      conv_lhs => rw [hT]
      rw [hD, joinNl_append (d :: ds) [ℓ] (by simp) (by simp), joinNl_singleton]
    have hstrip : pyStripR T = joinNl ((d :: ds) ++ [pyStripR ℓ]) := by
      rw [hTj]
      have h1 : pyStripR ('\n' :: ℓ) = '\n' :: pyStripR ℓ := pyStripR_cons_nl hsr
      rw [pyStripR_append (by rw [h1]; exact List.cons_ne_nil _ _), h1,
        joinNl_append (d :: ds) [pyStripR ℓ] (by simp) (by simp), joinNl_singleton]
    have hnoNl : ∀ x ∈ (d :: ds) ++ [pyStripR ℓ], '\n' ∉ x := by
      intro x hx
      rcases List.mem_append.mp hx with hx | hx
      · have hx' : x ∈ (splitNl T).dropLast := by rw [hD]; exact hx
        exact mem_splitNl_no_nl T x (List.dropLast_prefix _ |>.subset hx')
      · rw [List.mem_singleton] at hx
        subst hx
        exact hsrNoNl
    rw [hstrip, splitNl_joinNl _ (by simp), flatten_map_splitNl hnoNl]

theorem blocks_flatten (init : List Cue) :
    ((((init.map (fun c => [intStr c.index, timeLine c, c.text.data, []])).flatten).map
      splitNl).flatten) =
      (init.map (fun c => intStr c.index :: timeLine c :: textLines c ++ [[]])).flatten := by
  induction init with
  | nil => rfl
  | cons c rest ih =>
    rw [List.map_cons, List.flatten_cons, List.map_append, List.flatten_append, ih,
      List.map_cons, List.flatten_cons]
    have h1 : splitNl (intStr c.index) = [intStr c.index] :=
      splitNl_singleton (noNl_intStr _)
    have h2 : splitNl (timeLine c) = [timeLine c] :=
      splitNl_singleton (noNl_timeLine _)
    simp only [List.map_cons, List.map_nil, h1, h2, List.flatten_cons, List.flatten_nil]
    show [intStr c.index] ++ ([timeLine c] ++ (textLines c ++ ([[]] ++ []))) ++ _ = _
    simp [textLines]

theorem scanBlocks_decomp :
    ∀ (init : List Cue) (clast : Cue),
      scanBlocks (init ++ [clast]) =
        (init.map (fun c => intStr c.index :: timeLine c :: textLines c ++ [[]])).flatten ++
          lastBlock clast := by
  intro init
  induction init with
  | nil => intro clast; rfl
  | cons c rest ih =>
    intro clast
    cases rest with
    | nil =>
      show (intStr c.index :: timeLine c :: textLines c ++ [[]]) ++ scanBlocks [clast] = _
      simp [scanBlocks]
    | cons c2 rest2 =>
      show (intStr c.index :: timeLine c :: textLines c ++ [[]]) ++
        scanBlocks ((c2 :: rest2) ++ [clast]) = _
      rw [ih clast]
      simp [List.append_assoc]

/-- The validator's `lines` list for a generated file over a non-empty
cue list with non-blank text lines: the header, one blank line, then the
cue blocks (with the final blank line and the right-stripped last text
line as produced by `content.strip()`). -/
theorem lines_of_generate (subs : List Cue) (hne : subs ≠ [])
    (hnb : ∀ c ∈ subs, ∀ ln ∈ textLines c, ∃ ch ∈ ln, isWS ch = false) :
    splitNl (pyStripChars (generate_webvtt subs)) =
      "WEBVTT".data :: [] :: scanBlocks subs := by
  obtain ⟨init, clast, hdecomp⟩ : ∃ init clast, subs = init ++ [clast] :=
    ⟨subs.dropLast, subs.getLast hne, (List.dropLast_append_getLast hne).symm⟩
  subst hdecomp
  set F : List (List Char) :=
    (init.map (fun c => [intStr c.index, timeLine c, c.text.data, []])).flatten with hF
  set M : List (List Char) :=
    ["WEBVTT".data, []] ++ F ++ [intStr clast.index, timeLine clast] with hM
  have hMne : M ≠ [] := by rw [hM]; simp
  have hgen : generate_webvtt (init ++ [clast]) = joinNl (M ++ [clast.text.data, []]) := by
    unfold generate_webvtt joinNl
    rw [hM, hF]
    congr 1
    rw [List.map_append, List.flatten_append]
    simp [List.append_assoc]
  have hnb_last : ∀ ln ∈ textLines clast, ∃ ch ∈ ln, isWS ch = false :=
    hnb clast (by simp)
  have hT_has : ∃ ch ∈ clast.text.data, isWS ch = false := by
    have hℓmem : (textLines clast).getLast (splitNl_ne_nil _) ∈ textLines clast :=
      List.getLast_mem _
    obtain ⟨ch, hch, hws⟩ := hnb_last _ hℓmem
    exact ⟨ch, mem_of_mem_splitNl _ _ hℓmem ch hch, hws⟩
  have hTsr : pyStripR clast.text.data ≠ [] := pyStripR_ne_nil hT_has
  have h1 : joinNl (M ++ [clast.text.data, []]) =
      joinNl (M ++ [clast.text.data]) ++ ['\n'] := by
    have hsplit : M ++ [clast.text.data, []] = (M ++ [clast.text.data]) ++ [[]] := by simp
    rw [hsplit, joinNl_append (M ++ [clast.text.data]) [[]] (by simp) (by simp),
      joinNl_singleton]
  have h2 : joinNl (M ++ [clast.text.data]) = joinNl M ++ '\n' :: clast.text.data := by
    rw [joinNl_append M [clast.text.data] hMne (by simp), joinNl_singleton]
  have hB : pyStripR ('\n' :: clast.text.data) ≠ [] := by
    rw [pyStripR_cons_nl hTsr]
    exact List.cons_ne_nil _ _
  have h3 : pyStripR (joinNl (M ++ [clast.text.data, []])) =
      joinNl M ++ '\n' :: pyStripR clast.text.data := by
    rw [h1, pyStripR_append_nl, h2, pyStripR_append hB, pyStripR_cons_nl hTsr]
  have h4 : joinNl M ++ '\n' :: pyStripR clast.text.data =
      joinNl (M ++ [pyStripR clast.text.data]) := by
    rw [joinNl_append M [pyStripR clast.text.data] hMne (by simp), joinNl_singleton]
  have hcons : M ++ [pyStripR clast.text.data] =
      "WEBVTT".data :: ([([] : List Char)] ++ F ++
        [intStr clast.index, timeLine clast] ++ [pyStripR clast.text.data]) := by
    rw [hM]
    simp
  have hstart : ∃ u, joinNl (M ++ [pyStripR clast.text.data]) = 'W' :: u := by
    rw [hcons, joinNl_cons_cons _ _ (by simp)]
    exact ⟨'E' :: 'B' :: 'V' :: 'T' :: 'T' :: '\n' ::
      joinNl ([([] : List Char)] ++ F ++ [intStr clast.index, timeLine clast] ++
        [pyStripR clast.text.data]), rfl⟩
  obtain ⟨u, hu⟩ := hstart
  have h5 : pyStripChars (joinNl (M ++ [clast.text.data, []])) =
      joinNl (M ++ [pyStripR clast.text.data]) := by
    unfold pyStripChars
    rw [h3, h4, hu, pyStripL_cons_of_not_ws (by decide), ← hu]
  rw [hgen, h5, splitNl_joinNl _ (by rw [hM]; simp)]
  have hW : splitNl ("WEBVTT".data) = ["WEBVTT".data] :=
    splitNl_singleton (by decide)
  have hE : splitNl ([] : List Char) = [[]] := rfl
  have hi : splitNl (intStr clast.index) = [intStr clast.index] :=
    splitNl_singleton (noNl_intStr _)
  have ht : splitNl (timeLine clast) = [timeLine clast] :=
    splitNl_singleton (noNl_timeLine _)
  have hx : splitNl (pyStripR clast.text.data) =
      (textLines clast).dropLast ++ [pyStripR ((textLines clast).getLastD [])] :=
    splitNl_pyStripR clast.text.data hnb_last
  rw [hM]
  rw [List.map_append, List.flatten_append, List.map_append, List.flatten_append,
    List.map_append, List.flatten_append]
  simp only [List.map_cons, List.map_nil, List.flatten_cons, List.flatten_nil,
    hW, hE, hi, ht, hx, hF]
  rw [blocks_flatten init, scanBlocks_decomp init clast]
  simp [lastBlock, List.append_assoc]

/-! ### The numbered-block scan on a generated file -/

theorem vttScan_skip (count : ℕ) (issues : List String) (valid : Bool)
    (l : List Char) (X : List (List Char))
    (hl : isDigitStr (pyStripChars l) = false) :
    vttScan count issues valid (l :: X) = vttScan count issues valid X := by
  simp [vttScan, hl]

theorem vttScan_step (count : ℕ) (issues : List String) (valid : Bool)
    (l time t1 x0 : List Char) (X : List (List Char))
    (hl : isDigitStr (pyStripChars l) = true)
    (htime : (" --> ".data) <:+: time)
    (ht1 : ¬ (pyStripChars t1 = [])) :
    vttScan count issues valid (l :: time :: t1 :: x0 :: X) =
      vttScan (count + 1) issues valid X := by
  simp [vttScan, hl, htime, ht1]

theorem vttScan_last2 (count : ℕ) (issues : List String) (valid : Bool)
    (l time t1 : List Char)
    (hl : isDigitStr (pyStripChars l) = true)
    (htime : (" --> ".data) <:+: time)
    (ht1 : ¬ (pyStripChars t1 = [])) :
    vttScan count issues valid [l, time, t1] = (count + 1, issues, valid) := by
  simp [vttScan, hl, htime, ht1]

/-- The well-formedness facts about one cue that the structural
validator needs (the amendment adds the no-all-digit-lines condition). -/
def GoodCue (c : Cue) : Prop :=
  0 < c.index ∧
  (textLines c).length ≤ 3 ∧
  (∀ ln ∈ textLines c, ∃ ch ∈ ln, isWS ch = false) ∧
  (∀ ln ∈ textLines c, isDigitStr (pyStripChars ln) = false)

theorem goodCue_num {c : Cue} (h : GoodCue c) :
    isDigitStr (pyStripChars (intStr c.index)) = true := by
  rw [intStr_pos h.1, pyStripChars_natStr]
  exact isDigitStr_natStr _

theorem goodCue_time (c : Cue) : (" --> ".data) <:+: timeLine c :=
  ⟨format_time c.start, format_time c.«end», rfl⟩

theorem goodCue_strip_ne {c : Cue} (h : GoodCue c) {ln : List Char}
    (hln : ln ∈ textLines c) : ¬ (pyStripChars ln = []) :=
  pyStripChars_ne_nil (h.2.2.1 ln hln)

theorem isDigitStr_nil_strip : isDigitStr (pyStripChars []) = false := rfl

/-- Scanning the blocks of a non-empty good cue list counts exactly the
cues and adds no issues. -/
theorem vttScan_blocks :
    ∀ (subs : List Cue), subs ≠ [] → (∀ c ∈ subs, GoodCue c) →
      ∀ (count : ℕ) (issues : List String) (valid : Bool),
        vttScan count issues valid (scanBlocks subs) =
          (count + subs.length, issues, valid) := by
  intro subs
  induction subs with
  | nil => intro h; exact absurd rfl h
  | cons c rest ih =>
    intro _ hgood count issues valid
    have hc : GoodCue c := hgood c (List.mem_cons_self _ _)
    have hnum := goodCue_num hc
    have htime := goodCue_time c
    obtain ⟨t1, tl, htl⟩ : ∃ t1 tl, textLines c = t1 :: tl := by
      cases hm : textLines c with
      | nil => exact absurd hm (splitNl_ne_nil _)
      | cons t1 tl => exact ⟨t1, tl, rfl⟩
    have ht1mem : t1 ∈ textLines c := htl ▸ List.mem_cons_self _ _
    cases rest with
    | nil =>
      -- last (and only) block
      have hlastD : (textLines c).getLastD [] = (t1 :: tl).getLastD [] := by rw [htl]
      cases tl with
      | nil =>
        have hblock : scanBlocks [c] = [intStr c.index, timeLine c, pyStripR t1] := by
          show lastBlock c = _
          unfold lastBlock
          rw [htl]
          rfl
        rw [hblock, vttScan_last2 _ _ _ _ _ _ hnum htime ?ht1]
        · simp
        case ht1 =>
          rw [pyStripChars_pyStripR]
          exact goodCue_strip_ne hc ht1mem
      | cons t2 tl2 =>
        cases tl2 with
        | nil =>
          have hblock : scanBlocks [c] =
              [intStr c.index, timeLine c, t1, pyStripR t2] := by
            show lastBlock c = _
            unfold lastBlock
            rw [htl]
            rfl
          rw [hblock, vttScan_step _ _ _ _ _ _ _ _ hnum htime
            (goodCue_strip_ne hc ht1mem)]
          simp [vttScan]
        | cons t3 tl3 =>
          have htl3 : tl3 = [] := by
            have := hc.2.1
            rw [htl] at this
            simp only [List.length_cons] at this
            have : tl3.length = 0 := by omega
            exact List.length_eq_zero.mp this
          subst htl3
          have hblock : scanBlocks [c] =
              [intStr c.index, timeLine c, t1, t2, pyStripR t3] := by
            show lastBlock c = _
            unfold lastBlock
            rw [htl]
            rfl
          have ht3mem : t3 ∈ textLines c := by rw [htl]; simp
          rw [hblock, vttScan_step _ _ _ _ _ _ _ _ hnum htime
            (goodCue_strip_ne hc ht1mem)]
          rw [vttScan_skip _ _ _ _ _ (by rw [pyStripChars_pyStripR]; exact hc.2.2.2 t3 ht3mem)]
          simp [vttScan]
    | cons c2 rest2 =>
      have hS := ih (List.cons_ne_nil _ _)
        (fun x hx => hgood x (List.mem_cons_of_mem _ hx)) (count + 1) issues valid
      have hlen : (c :: c2 :: rest2).length = (c2 :: rest2).length + 1 := by simp
      have hblock : scanBlocks (c :: c2 :: rest2) =
          (intStr c.index :: timeLine c :: textLines c ++ [[]]) ++
            scanBlocks (c2 :: rest2) := rfl
      have harith : count + 1 + (c2 :: rest2).length = count + (c :: c2 :: rest2).length := by
        simp only [List.length_cons]
        omega
      cases tl with
      | nil =>
        have hshape : scanBlocks (c :: c2 :: rest2) =
            intStr c.index :: timeLine c :: t1 :: [] :: scanBlocks (c2 :: rest2) := by
          rw [hblock, htl]
          rfl
        rw [hshape, vttScan_step _ _ _ _ _ _ _ _ hnum htime
          (goodCue_strip_ne hc ht1mem), hS, harith]
      | cons t2 tl2 =>
        cases tl2 with
        | nil =>
          have hshape : scanBlocks (c :: c2 :: rest2) =
              intStr c.index :: timeLine c :: t1 :: t2 :: [] :: scanBlocks (c2 :: rest2) := by
            rw [hblock, htl]
            rfl
          rw [hshape, vttScan_step _ _ _ _ _ _ _ _ hnum htime
            (goodCue_strip_ne hc ht1mem),
            vttScan_skip _ _ _ _ _ isDigitStr_nil_strip, hS, harith]
        | cons t3 tl3 =>
          have htl3 : tl3 = [] := by
            have hlc := hc.2.1
            rw [htl] at hlc
            simp only [List.length_cons] at hlc
            have : tl3.length = 0 := by omega
            exact List.length_eq_zero.mp this
          subst htl3
          have ht3mem : t3 ∈ textLines c := by rw [htl]; simp
          have hshape : scanBlocks (c :: c2 :: rest2) =
              intStr c.index :: timeLine c :: t1 :: t2 :: t3 :: [] ::
                scanBlocks (c2 :: rest2) := by
            rw [hblock, htl]
            rfl
          rw [hshape, vttScan_step _ _ _ _ _ _ _ _ hnum htime
            (goodCue_strip_ne hc ht1mem),
            vttScan_skip _ _ _ _ _ (hc.2.2.2 t3 ht3mem),
            vttScan_skip _ _ _ _ _ isDigitStr_nil_strip, hS, harith]

/-! ### Concrete `format_time` evaluations -/

theorem format_time_zero : format_time 0 = "00:00:00.000".data := by
  have h1 : ⌊(0:ℚ) / 3600⌋ = 0 := by norm_num
  have h2 : pyMod 0 3600 = 0 := by unfold pyMod; rw [h1]; norm_num
  have h3 : ⌊pyMod (0:ℚ) 3600 / 60⌋ = 0 := by rw [h2]; norm_num
  have h4 : pyMod (0:ℚ) 60 = 0 := by
    unfold pyMod
    have h : ⌊(0:ℚ) / 60⌋ = 0 := by norm_num
    rw [h]
    norm_num
  have h5 : rndHalfEven (1000 * (0:ℚ)) = 0 := by
    have h : (1000 * (0:ℚ)) = ((0:ℤ):ℚ) := by norm_num
    rw [h, rndHalfEven_intCast]
  unfold format_time secFmt
  rw [h1, h3, h4, h5]
  decide

theorem format_time_ten : format_time 10 = "00:00:10.000".data := by
  have h1 : ⌊(10:ℚ) / 3600⌋ = 0 := by norm_num
  have h2 : pyMod 10 3600 = 10 := by unfold pyMod; rw [h1]; norm_num
  have h3 : ⌊pyMod (10:ℚ) 3600 / 60⌋ = 0 := by rw [h2]; norm_num
  have h4 : pyMod (10:ℚ) 60 = 10 := by
    unfold pyMod
    have h : ⌊(10:ℚ) / 60⌋ = 0 := by norm_num
    rw [h]
    norm_num
  have h5 : rndHalfEven (1000 * (10:ℚ)) = 10000 := by
    have h : (1000 * (10:ℚ)) = ((10000:ℤ):ℚ) := by norm_num
    rw [h, rndHalfEven_intCast]
  unfold format_time secFmt
  rw [h1, h3, h4, h5]
  decide

theorem format_time_twenty : format_time 20 = "00:00:20.000".data := by
  have h1 : ⌊(20:ℚ) / 3600⌋ = 0 := by norm_num
  have h2 : pyMod 20 3600 = 20 := by unfold pyMod; rw [h1]; norm_num
  have h3 : ⌊pyMod (20:ℚ) 3600 / 60⌋ = 0 := by rw [h2]; norm_num
  have h4 : pyMod (20:ℚ) 60 = 20 := by
    unfold pyMod
    have h : ⌊(20:ℚ) / 60⌋ = 0 := by norm_num
    rw [h]
    norm_num
  have h5 : rndHalfEven (1000 * (20:ℚ)) = 20000 := by
    have h : (1000 * (20:ℚ)) = ((20000:ℤ):ℚ) := by norm_num
    rw [h, rndHalfEven_intCast]
  unfold format_time secFmt
  rw [h1, h3, h4, h5]
  decide

/-- C7: round-trip.  Serializing a cue list that satisfies the §3
invariants (positive strictly ordered indices, 1–3 text lines of at most
25 characters, `start < end`, sorted and non-overlapping) with
`generate_webvtt` and structurally checking the result with
`validate_webvtt_file` yields `is_valid = true` with no issues and the
exact cue count — provided additionally (the amendment) that every text
line contains a non-whitespace character and no text line's stripped
form consists solely of digits. -/
theorem C7_roundtrip_valid (subs : List Cue)
    (hidx : ∀ c ∈ subs, 0 < c.index)
    (hord : List.Chain' (fun a b : Cue => a.index < b.index) subs)
    (hlines : ∀ c ∈ subs, (textLines c).length ≤ 3)
    (hlen25 : ∀ c ∈ subs, ∀ ln ∈ textLines c, ln.length ≤ 25)
    (hnb : ∀ c ∈ subs, ∀ ln ∈ textLines c, ∃ ch ∈ ln, isWS ch = false)
    (hdur : ∀ c ∈ subs, c.start < c.«end»)
    (hsep : List.Chain' (fun a b : Cue => a.«end» ≤ b.start) subs)
    (hnd : ∀ c ∈ subs, ∀ ln ∈ textLines c, isDigitStr (pyStripChars ln) = false) :
    validate_webvtt_file (generate_webvtt subs) =
      { total_subtitles := subs.length, issues := [], is_valid := true } := by
  cases subs with
  | nil => decide
  | cons c rest =>
    have hne : c :: rest ≠ [] := List.cons_ne_nil _ _
    have hlines_eq := lines_of_generate (c :: rest) hne hnb
    have hgood : ∀ x ∈ c :: rest, GoodCue x :=
      fun x hx => ⟨hidx x hx, hlines x hx, hnb x hx, hnd x hx⟩
    have hscan := vttScan_blocks (c :: rest) hne hgood 0 [] true
    simp only [validate_webvtt_file]
    rw [hlines_eq]
    have hhd : (pyStripChars ("WEBVTT".data) == "WEBVTT".data) = true := by decide
    simp only [List.headD_cons, List.drop_succ_cons, List.drop_zero, hhd, if_true]
    rw [hscan]
    simp

/-- C7 witness: the single cue `⟨1, "hi", 0, 10, "estimated"⟩` round-trips
to a valid file with one counted subtitle and no issues. -/
theorem C7_roundtrip_valid_witness :
    validate_webvtt_file (generate_webvtt [⟨1, "hi", 0, 10, "estimated"⟩]) =
      { total_subtitles := 1, issues := [], is_valid := true } :=
  C7_roundtrip_valid [⟨1, "hi", 0, 10, "estimated"⟩]
    (by decide) (List.chain'_singleton _) (by decide) (by decide) (by decide)
    (by
      intro c hc
      rw [List.mem_singleton] at hc
      subst hc
      show (0:ℚ) < 10
      norm_num)
    (List.chain'_singleton _)
    (by decide)

/-- C7 counterexample: the two cues `⟨1, "ab\ncd\n7", 0, 10, "estimated"⟩`
and `⟨2, "x", 10, 20, "estimated"⟩` satisfy every §3 invariant (positive
strictly ordered indices, 1–3 non-empty text lines of at most 25
characters, `start < end`, sorted, non-overlapping), yet the serialized
file fails the structural check: the first cue's third text line `"7"` is
all digits, so the scanner mistakes it for a cue number and reports a
time-format issue. -/
theorem C7_counterexample :
    (∀ c ∈ ([⟨1, "ab\ncd\n7", 0, 10, "estimated"⟩,
             ⟨2, "x", 10, 20, "estimated"⟩] : List Cue),
        0 < c.index ∧ 1 ≤ (textLines c).length ∧ (textLines c).length ≤ 3 ∧
          ∀ ln ∈ textLines c, 1 ≤ ln.length ∧ ln.length ≤ 25) ∧
    List.Chain' (fun a b : Cue => a.index < b.index)
      [⟨1, "ab\ncd\n7", 0, 10, "estimated"⟩, ⟨2, "x", 10, 20, "estimated"⟩] ∧
    (∀ c ∈ ([⟨1, "ab\ncd\n7", 0, 10, "estimated"⟩,
             ⟨2, "x", 10, 20, "estimated"⟩] : List Cue), c.start < c.«end») ∧
    List.Chain' (fun a b : Cue => a.«end» ≤ b.start)
      [⟨1, "ab\ncd\n7", 0, 10, "estimated"⟩, ⟨2, "x", 10, 20, "estimated"⟩] ∧
    (validate_webvtt_file (generate_webvtt
      [⟨1, "ab\ncd\n7", 0, 10, "estimated"⟩,
       ⟨2, "x", 10, 20, "estimated"⟩])).is_valid = false := by
  refine ⟨by decide, List.chain'_cons.mpr ⟨by decide, List.chain'_singleton _⟩, ?_, ?_, ?_⟩
  · intro c hc
    simp only [List.mem_cons, List.not_mem_nil, or_false] at hc
    rcases hc with rfl | rfl
    · show (0:ℚ) < 10
      norm_num
    · show (10:ℚ) < 20
      norm_num
  · refine List.chain'_cons.mpr ⟨?_, List.chain'_singleton _⟩
    show (10:ℚ) ≤ 10
    norm_num
  · have ht1 : timeLine ⟨1, "ab\ncd\n7", 0, 10, "estimated"⟩ =
        "00:00:00.000 --> 00:00:10.000".data := by
      show format_time 0 ++ (" --> ".data) ++ format_time 10 = _
      rw [format_time_zero, format_time_ten]
      decide
    have ht2 : timeLine ⟨2, "x", 10, 20, "estimated"⟩ =
        "00:00:10.000 --> 00:00:20.000".data := by
      show format_time 10 ++ (" --> ".data) ++ format_time 20 = _
      rw [format_time_ten, format_time_twenty]
      decide
    simp only [generate_webvtt, List.map_cons, List.map_nil, List.flatten_cons,
      List.flatten_nil, ht1, ht2]
    decide

end Podcast
